import Mathlib

/-!
Shallow embedding of the DNA sequence-statistics engine (src/main.py) and
proofs of the specification's testable properties.

Modelling conventions:
* A Python string is a `List Char`.
* A Python dict is an association list that preserves insertion order
  (new keys are appended at the end), mirroring CPython semantics.
* Python floats are idealised as `ℚ`; `float("-inf")` / `float("inf")`
  initial accumulators are modelled as an `Option ℚ` state (`none` compares
  below / above every finite value, exactly as `-inf` / `inf` do against the
  finite field values stored in the stat records).
* A Python runtime error (ZeroDivisionError, KeyError, IndexError) is an
  `Except String` error value.
-/

namespace DnaStats

/-- A DNA sequence: an ordered, immutable string of characters. -/
abbrev Seq := List Char

/-- Python dict lookup `d[k]` as an option (association list, first match). -/
def lookupD {α β : Type} [DecidableEq α] (k : α) : List (α × β) → Option β
  | [] => none
  | (a, b) :: t => if a = k then some b else lookupD k t

/-- Python `d[key] = d.get(key, 0) + v` on a counting dict: add `v` to the
entry for `k`, appending `(k, v)` at the end when `k` is absent (this is the
`if key not in d: d[key] = 0` / `d[key] += v` idiom of the source). -/
def bump {α : Type} [DecidableEq α] (k : α) (v : ℕ) : List (α × ℕ) → List (α × ℕ)
  | [] => [(k, v)]
  | (a, b) :: t => if a = k then (a, b + v) :: t else (a, b) :: bump k v t

/-- Number of elements of Python `range(0, stop, step)`. -/
def pyRangeLen (stop step : ℕ) : ℕ := (stop + step - 1) / step

/-- Python `range(0, stop, step)` as a list (`step ≥ 1`). -/
def pyRange (stop step : ℕ) : List ℕ := List.range' 0 (pyRangeLen stop step) step

/-- Shallow embedding of `substrings` (src/main.py lines 9-27): slide a
window of length `win_len` over `seq` starting at offset 0 and advancing by
`hop_len`; the loop `break`s at the first window that does not fit, which is
`takeWhile` over the offsets of Python `range(0, len(seq), hop_len)`. -/
def substrings (seq : Seq) (win_len hop_len : ℕ) : List Seq :=
  ((pyRange seq.length hop_len).takeWhile
      (fun i => ((seq.drop i).take win_len).length == win_len)).map
    (fun i => (seq.drop i).take win_len)

/-- `find_k_mers` (src/main.py lines 152-171): count all windows of length
`k` at stride 1 into an insertion-ordered dict. -/
def find_k_mers (seq : Seq) (k : ℕ) : List (Seq × ℕ) :=
  (substrings seq k 1).foldl (fun m s => bump s 1 m) []

/- ### Window characterisation lemmas -/

theorem window_fits_iff (seq : Seq) (win i : ℕ) (hw : 1 ≤ win) :
    (((seq.drop i).take win).length = win) ↔ i + win ≤ seq.length := by
  simp only [List.length_take, List.length_drop]
  omega

theorem takeWhile_eq_filter_of_pairwise {α : Type} (p : α → Bool) :
    ∀ l : List α, l.Pairwise (fun x y => p x = false → p y = false) →
      l.takeWhile p = l.filter p := by
  intro l
  induction l with
  | nil => intro _; rfl
  | cons a t ih =>
    intro hp
    rw [List.pairwise_cons] at hp
    by_cases ha : p a = true
    · rw [List.takeWhile_cons_of_pos ha, List.filter_cons_of_pos ha, ih hp.2]
    · have ha' : p a = false := by
        cases h : p a
        · rfl
        · exact absurd h ha
      rw [List.takeWhile_cons_of_neg ha, List.filter_cons_of_neg ha]
      have : ∀ x ∈ t, ¬ (p x = true) := by
        intro x hx hpx
        have := hp.1 x hx ha'
        rw [this] at hpx
        exact Bool.false_ne_true hpx
      exact (List.filter_eq_nil_iff.mpr this).symm

theorem range'_eq_map_range (h : ℕ) :
    ∀ (n s : ℕ), List.range' s n h = (List.range n).map (fun k => s + k * h) := by
  intro n
  induction n with
  | zero => intro s; rfl
  | succ m ih =>
    intro s
    rw [List.range'_succ, List.range_succ_eq_map, List.map_cons, ih (s + h),
      List.map_map]
    refine congrArg₂ _ (by omega) ?_
    refine List.map_congr_left ?_
    intro k _
    simp only [Function.comp_apply, Nat.succ_eq_add_one]
    ring

theorem filter_map_comm {α β : Type} (f : α → β) (p : β → Bool) :
    ∀ l : List α, (l.map f).filter p = (l.filter (fun a => p (f a))).map f := by
  intro l
  induction l with
  | nil => rfl
  | cons a t ih =>
    cases h : p (f a) <;> simp [List.filter_cons, h, ih]

theorem filter_range_congr (q : ℕ → Bool) (a b : ℕ)
    (h : ∀ k, q k = true → k < a ∧ k < b) :
    (List.range a).filter q = (List.range b).filter q := by
  wlog hab : a ≤ b generalizing a b
  · exact (this b a (fun k hk => ⟨(h k hk).2, (h k hk).1⟩) (by omega)).symm
  obtain ⟨c, rfl⟩ : ∃ c, b = a + c := ⟨b - a, by omega⟩
  rw [List.range_add, List.filter_append]
  have : ((List.range c).map (a + ·)).filter q = [] := by
    refine List.filter_eq_nil_iff.mpr ?_
    intro x hx hqx
    obtain ⟨k, _, rfl⟩ := List.mem_map.mp hx
    have := (h _ hqx).1
    omega
  rw [this, List.append_nil]

/-- The offsets of the window scan: `substrings` yields exactly the slices at
offsets `i * hop` whose window fits entirely inside the sequence, the window
indices `i` taken in increasing order. -/
theorem substrings_eq_filter (seq : Seq) (win hop : ℕ) (hw : 1 ≤ win) (hh : 1 ≤ hop) :
    substrings seq win hop =
      ((List.range seq.length).filter (fun i => i * hop + win ≤ seq.length)).map
        (fun i => (seq.drop (i * hop)).take win) := by
  unfold substrings pyRange
  set L := seq.length with hL
  set p : ℕ → Bool := fun i => ((seq.drop i).take win).length == win with hp
  have hpiff : ∀ i, p i = true ↔ i + win ≤ L := by
    intro i
    rw [hp]
    simp only [beq_iff_eq]
    exact window_fits_iff seq win i hw
  rw [range'_eq_map_range hop (pyRangeLen L hop) 0]
  have hmono : ((List.range (pyRangeLen L hop)).map (fun k => 0 + k * hop)).Pairwise
      (fun x y => p x = false → p y = false) := by
    rw [List.pairwise_map]
    refine List.Pairwise.imp ?_ (List.pairwise_lt_range (pyRangeLen L hop))
    intro i j hij hpi
    cases hpj : p (0 + j * hop)
    · rfl
    · exfalso
      have hj := (hpiff (0 + j * hop)).mp hpj
      have hi : (0 + i * hop) + win ≤ L := by
        have hmul : i * hop ≤ j * hop := Nat.mul_le_mul_right hop (Nat.le_of_lt hij)
        omega
      have htrue := (hpiff (0 + i * hop)).mpr hi
      rw [htrue] at hpi
      exact Bool.noConfusion hpi
  rw [takeWhile_eq_filter_of_pairwise p _ hmono, filter_map_comm, List.map_map]
  have hfilters : ((List.range (pyRangeLen L hop)).filter
        (fun a => p ((fun k => 0 + k * hop) a)))
      = ((List.range L).filter (fun i => decide (i * hop + win ≤ L))) := by
    have hstep : ((List.range (pyRangeLen L hop)).filter
          (fun a => p ((fun k => 0 + k * hop) a)))
        = ((List.range (pyRangeLen L hop)).filter
            (fun i => decide (i * hop + win ≤ L))) := by
      refine List.filter_congr ?_
      intro k _
      show p (0 + k * hop) = decide (k * hop + win ≤ L)
      cases hpk : p (0 + k * hop)
      · have : ¬ (k * hop + win ≤ L) := by
          intro hc
          have := (hpiff (0 + k * hop)).mpr (by omega)
          rw [hpk] at this
          exact Bool.noConfusion this
        simp [this]
      · have := (hpiff (0 + k * hop)).mp hpk
        have h2 : k * hop + win ≤ L := by omega
        simp [h2]
    rw [hstep]
    refine filter_range_congr _ _ _ ?_
    intro k hk
    have hk' : k * hop + win ≤ L := of_decide_eq_true hk
    have hkL : k < L := by
      have h1 : k ≤ k * hop := Nat.le_mul_of_pos_right k (by omega)
      omega
    refine ⟨?_, hkL⟩
    unfold pyRangeLen
    have h1 : (k + 1) * hop ≤ L + hop - 1 := by
      have h2 : (k + 1) * hop = k * hop + hop := by ring
      omega
    have h3 : k + 1 ≤ (L + hop - 1) / hop := (Nat.le_div_iff_mul_le (by omega)).mpr h1
    omega
  rw [hfilters]
  refine List.map_congr_left ?_
  intro i _
  simp [Nat.zero_add]

/- ### Counting-dict lemmas -/

theorem bump_snd_sum {α : Type} [DecidableEq α] (k : α) (v : ℕ) :
    ∀ m : List (α × ℕ), ((bump k v m).map Prod.snd).sum = (m.map Prod.snd).sum + v := by
  intro m
  induction m with
  | nil => simp [bump]
  | cons ab t ih =>
    obtain ⟨a, b⟩ := ab
    by_cases hak : a = k
    · simp [bump, hak]
      omega
    · simp [bump, hak, ih]
      omega

theorem foldl_bump_sum :
    ∀ (ws : List Seq) (m : List (Seq × ℕ)),
      (((ws.foldl (fun m s => bump s 1 m) m)).map Prod.snd).sum
        = (m.map Prod.snd).sum + ws.length := by
  intro ws
  induction ws with
  | nil => intro m; simp
  | cons w ws ih =>
    intro m
    simp only [List.foldl_cons, List.length_cons, ih (bump w 1 m), bump_snd_sum]
    omega

theorem lookupD_bump {α : Type} [DecidableEq α] (k : α) (v : ℕ) (s : α) :
    ∀ m : List (α × ℕ),
      lookupD s (bump k v m) =
        if s = k then some ((lookupD s m).getD 0 + v) else lookupD s m := by
  intro m
  induction m with
  | nil =>
    by_cases hsk : s = k
    · subst hsk
      simp [bump, lookupD]
    · have hks : ¬ (k = s) := fun h => hsk h.symm
      simp [bump, lookupD, hsk, hks]
  | cons ab t ih =>
    obtain ⟨a, b⟩ := ab
    have hb : bump k v ((a, b) :: t)
        = if a = k then (a, b + v) :: t else (a, b) :: bump k v t := rfl
    have hl : ∀ (c : ℕ) (t' : List (α × ℕ)), lookupD s ((a, c) :: t')
        = if a = s then some c else lookupD s t' := fun _ _ => rfl
    by_cases hak : a = k
    · subst hak
      rw [if_pos rfl] at hb
      rw [hb, hl, hl]
      by_cases hsa : s = a
      · subst hsa
        simp
      · have : ¬ (a = s) := fun h => hsa h.symm
        simp [this, hsa]
    · rw [if_neg hak] at hb
      rw [hb, hl, hl, ih]
      by_cases hsa : s = a
      · subst hsa
        have hsk : ¬ (s = k) := hak
        simp [hsk]
      · have : ¬ (a = s) := fun h => hsa h.symm
        simp [this]

theorem lookupD_isSome_iff {α β : Type} [DecidableEq α] (s : α) :
    ∀ m : List (α × β), (lookupD s m).isSome ↔ ∃ c, (s, c) ∈ m := by
  intro m
  induction m with
  | nil => simp [lookupD]
  | cons ab t ih =>
    obtain ⟨a, b⟩ := ab
    by_cases has : a = s
    · subst has
      simp [lookupD]
    · have hsa : ¬ (s = a) := fun h => has h.symm
      simp only [lookupD, if_neg has, ih, List.mem_cons, Prod.mk.injEq]
      constructor
      · rintro ⟨c, hc⟩
        exact ⟨c, Or.inr hc⟩
      · rintro ⟨c, ⟨hs, _⟩ | hc⟩
        · exact absurd hs hsa
        · exact ⟨c, hc⟩

theorem mem_bump_keys {α : Type} [DecidableEq α] (k : α) (v : ℕ) (s : α)
    (m : List (α × ℕ)) :
    (∃ c, (s, c) ∈ bump k v m) ↔ (s = k ∨ ∃ c, (s, c) ∈ m) := by
  rw [← lookupD_isSome_iff, ← lookupD_isSome_iff, lookupD_bump]
  by_cases hsk : s = k <;> simp [hsk]

theorem foldl_bump_keys :
    ∀ (ws : List Seq) (m : List (Seq × ℕ)) (s : Seq),
      (∃ c, (s, c) ∈ ws.foldl (fun m w => bump w 1 m) m) ↔
        (∃ c, (s, c) ∈ m) ∨ s ∈ ws := by
  intro ws
  induction ws with
  | nil => intro m s; simp
  | cons w ws ih =>
    intro m s
    rw [List.foldl_cons, ih (bump w 1 m) s, mem_bump_keys]
    simp only [List.mem_cons]
    tauto

theorem bump_vals_ge {α : Type} [DecidableEq α] (k : α) (v : ℕ) (hv : 1 ≤ v) :
    ∀ m : List (α × ℕ), (∀ kv ∈ m, 1 ≤ kv.2) →
      ∀ kv ∈ bump k v m, 1 ≤ kv.2 := by
  intro m
  induction m with
  | nil =>
    intro _ kv hkv
    simp only [bump, List.mem_singleton] at hkv
    subst hkv
    exact hv
  | cons ab t ih =>
    obtain ⟨a, b⟩ := ab
    intro hm kv hkv
    by_cases hak : a = k
    · simp only [bump, if_pos hak, List.mem_cons] at hkv
      rcases hkv with rfl | hkv
      · simp only
        omega
      · exact hm kv (List.mem_cons_of_mem _ hkv)
    · simp only [bump, if_neg hak, List.mem_cons] at hkv
      rcases hkv with rfl | hkv
      · exact hm (a, b) (List.mem_cons_self _ _)
      · exact ih (fun kv h => hm kv (List.mem_cons_of_mem _ h)) kv hkv

theorem foldl_bump_vals_ge :
    ∀ (ws : List Seq) (m : List (Seq × ℕ)), (∀ kv ∈ m, 1 ≤ kv.2) →
      ∀ kv ∈ ws.foldl (fun m w => bump w 1 m) m, 1 ≤ kv.2 := by
  intro ws
  induction ws with
  | nil => intro m hm; exact hm
  | cons w ws ih =>
    intro m hm
    exact ih (bump w 1 m) (bump_vals_ge w 1 le_rfl m hm)

/- ### Which substrings occur as stride-1 windows -/

theorem mem_substrings_iff (seq : Seq) (k : ℕ) (hk : 1 ≤ k) (s : Seq) :
    s ∈ substrings seq k 1 ↔ (s.length = k ∧ s <:+: seq) := by
  rw [substrings_eq_filter seq k 1 hk le_rfl]
  constructor
  · intro hs
    obtain ⟨i, hi, rfl⟩ := List.mem_map.mp hs
    rw [List.mem_filter, List.mem_range] at hi
    have hfit : i * 1 + k ≤ seq.length := of_decide_eq_true hi.2
    constructor
    · simp only [List.length_take, List.length_drop]
      omega
    · refine ⟨seq.take (i * 1), (seq.drop (i * 1)).drop k, ?_⟩
      rw [List.append_assoc, List.take_append_drop, List.take_append_drop]
  · rintro ⟨hlen, t, u, rfl⟩
    refine List.mem_map.mpr ⟨t.length, ?_, ?_⟩
    · rw [List.mem_filter, List.mem_range]
      constructor
      · simp only [List.length_append]
        omega
      · refine decide_eq_true ?_
        simp only [List.length_append]
        omega
    · rw [Nat.mul_one, List.append_assoc, List.drop_left, ← hlen, List.take_left]

/-- C7: for every sequence and `window_len ≥ 1`, `hop_len ≥ 1`, the window
scanner yields exactly the substrings `sequence[i*hop .. i*hop+window_len)`
for window indices `i = 0, 1, 2, ...` in increasing order, precisely those
whose window lies fully within the sequence; every yielded substring has
length exactly `window_len`, and no final partial window is yielded. -/
theorem claim_C7_window_scanner (seq : Seq) (win hop : ℕ) (hw : 1 ≤ win) (hh : 1 ≤ hop) :
    substrings seq win hop =
      ((List.range seq.length).filter (fun i => i * hop + win ≤ seq.length)).map
        (fun i => (seq.drop (i * hop)).take win) ∧
    ∀ s ∈ substrings seq win hop, s.length = win := by
  refine ⟨substrings_eq_filter seq win hop hw hh, ?_⟩
  intro s hs
  rw [substrings_eq_filter seq win hop hw hh] at hs
  obtain ⟨i, hi, rfl⟩ := List.mem_map.mp hs
  rw [List.mem_filter] at hi
  have hfit := of_decide_eq_true hi.2
  simp only [List.length_take, List.length_drop]
  omega

/-- Witness for C7 at the sequence `"ABCDE"`, window 2, hop 2. -/
theorem claim_C7_witness : (['C', 'D'] : Seq).length = 2 :=
  (claim_C7_window_scanner ['A', 'B', 'C', 'D', 'E'] 2 2 (by decide) (by decide)).2
    ['C', 'D'] (by decide)

/-- C5: for every sequence and `k ≥ 1`, if `k ≤ len(sequence)` the counts in
the mapping returned by `find_k_mers` sum to `len(sequence) - k + 1`, and
otherwise the returned mapping is empty. -/
theorem claim_C5_kmer_count_total (seq : Seq) (k : ℕ) (hk : 1 ≤ k) :
    (k ≤ seq.length → ((find_k_mers seq k).map Prod.snd).sum = seq.length - k + 1) ∧
    (seq.length < k → find_k_mers seq k = []) := by
  have hchar := substrings_eq_filter seq k 1 hk le_rfl
  constructor
  · intro hkL
    have hsum := foldl_bump_sum (substrings seq k 1) []
    rw [find_k_mers, hsum]
    simp only [List.map_nil, List.sum_nil, Nat.zero_add]
    rw [hchar, List.length_map]
    have h1 : ((List.range seq.length).filter (fun i => decide (i * 1 + k ≤ seq.length)))
        = ((List.range (seq.length - k + 1)).filter
            (fun i => decide (i * 1 + k ≤ seq.length))) := by
      refine filter_range_congr _ _ _ ?_
      intro i hi
      have := of_decide_eq_true hi
      omega
    rw [h1, List.filter_eq_self.mpr ?_, List.length_range]
    intro i hi
    rw [List.mem_range] at hi
    exact decide_eq_true (by omega)
  · intro hLk
    have hempty : substrings seq k 1 = [] := by
      rw [hchar]
      have h2 : ((List.range seq.length).filter (fun i => decide (i * 1 + k ≤ seq.length)))
          = [] := by
        refine List.filter_eq_nil_iff.mpr ?_
        intro i _ hq
        have := of_decide_eq_true hq
        omega
      rw [h2]
      rfl
    rw [find_k_mers, hempty]
    rfl

/-- Witness for C5 at the sequence `"ABC"` with `k = 2`. -/
theorem claim_C5_witness :
    ((find_k_mers ['A', 'B', 'C'] 2).map Prod.snd).sum
      = (['A', 'B', 'C'] : Seq).length - 2 + 1 :=
  (claim_C5_kmer_count_total ['A', 'B', 'C'] 2 (by decide)).1 (by decide)

/-- C10: for every sequence and `k ≥ 1`, every count in the mapping returned
by `find_k_mers` is at least 1, and the key set of the mapping is exactly the
set of length-`k` substrings occurring (contiguously) in the sequence. -/
theorem claim_C10_kmer_keys (seq : Seq) (k : ℕ) (hk : 1 ≤ k) :
    (∀ kv ∈ find_k_mers seq k, 1 ≤ kv.2) ∧
    (∀ s : Seq, (∃ c, (s, c) ∈ find_k_mers seq k) ↔ (s.length = k ∧ s <:+: seq)) := by
  constructor
  · intro kv hkv
    exact foldl_bump_vals_ge (substrings seq k 1) [] (by simp) kv hkv
  · intro s
    rw [find_k_mers, foldl_bump_keys]
    rw [mem_substrings_iff seq k hk s]
    simp

/-- Witness for C10 at the sequence `"AB"` with `k = 1`. -/
theorem claim_C10_witness : (['B'] : Seq).length = 1 ∧ (['B'] : Seq) <:+: ['A', 'B'] :=
  ((claim_C10_kmer_keys ['A', 'B'] 1 (by decide)).2 ['B']).mp ⟨1, by decide⟩

/- ### Composition analyzer (get_gc_stats) -/

/-- The GC statistics record returned by `get_gc_stats`. -/
structure GcStats where
  gc_distribution : ℚ
  gc_skew : ℚ
deriving DecidableEq

/-- `total_valid` of `get_gc_stats` (src/main.py lines 46-50): the sequence
length when no alphabet is supplied, else the length minus the number of
characters outside the alphabet. -/
def total_valid (sequence : Seq) (valid_nucleobases : Option (List Char)) : ℕ :=
  match valid_nucleobases with
  | none => sequence.length
  | some valid =>
      sequence.length - (sequence.filter (fun base => !(decide (base ∈ valid)))).length

/-- `get_gc_stats` (src/main.py lines 30-59): the `C` and `G` counts are taken
over the whole sequence; a Python `ZeroDivisionError` (division by
`total_valid = 0`, evaluated first, or by a zero `G + C` count) is an
`Except.error`. -/
def get_gc_stats (sequence : Seq) (valid_nucleobases : Option (List Char)) :
    Except String GcStats :=
  let num_c := sequence.count 'C'
  let num_g := sequence.count 'G'
  if total_valid sequence valid_nucleobases = 0 then Except.error "ZeroDivisionError"
  else if num_g + num_c = 0 then Except.error "ZeroDivisionError"
  else Except.ok
    { gc_distribution :=
        ((num_c : ℚ) + (num_g : ℚ)) / (total_valid sequence valid_nucleobases : ℚ)
      gc_skew := ((num_g : ℚ) - (num_c : ℚ)) / ((num_g : ℚ) + (num_c : ℚ)) }

theorem length_filter_not_add {α : Type} (p : α → Bool) :
    ∀ l : List α, (l.filter (fun x => !(p x))).length + (l.filter p).length = l.length := by
  intro l
  induction l with
  | nil => rfl
  | cons x t ih =>
    cases h : p x <;> simp [List.filter_cons, h] <;> omega

theorem count_two_le_countP {α : Type} [DecidableEq α] (a b : α) (hab : a ≠ b)
    (p : α → Bool) (ha : p a = true) (hb : p b = true) :
    ∀ l : List α, l.count a + l.count b ≤ (l.filter p).length := by
  intro l
  induction l with
  | nil => simp
  | cons x t ih =>
    by_cases hxa : x = a
    · subst hxa
      have hxb : ¬ (b = x) := fun h => hab h.symm
      simp [List.count_cons, List.filter_cons, ha, hxb]
      omega
    · have hax : ¬ (a = x) := fun h => hxa h.symm
      by_cases hxb : x = b
      · subst hxb
        simp [List.count_cons, List.filter_cons, hb, hax]
        omega
      · have hbx : ¬ (b = x) := fun h => hxb h.symm
        cases hp : p x <;> simp [List.count_cons, List.filter_cons, hp, hax, hbx] <;> omega

/-- C1 (amended): for every sequence and optional alphabet with
`total_valid > 0`, **provided the alphabet, when one is given, contains both
`'C'` and `'G'`**, the `gc_distribution` returned by `get_gc_stats` lies in
`[0, 1]`.  (Without that proviso the claim is false: `C`/`G` occurrences are
counted over the whole sequence while `total_valid` only counts alphabet
characters, see the counterexample.) -/
theorem claim_C1_gc_distribution_range (seq : Seq) (valid : Option (List Char))
    (halpha : ∀ vs, valid = some vs → ('C' ∈ vs ∧ 'G' ∈ vs))
    (hpos : 0 < total_valid seq valid) (s : GcStats)
    (hok : get_gc_stats seq valid = Except.ok s) :
    0 ≤ s.gc_distribution ∧ s.gc_distribution ≤ 1 := by
  rw [get_gc_stats] at hok
  simp only [if_neg (Nat.pos_iff_ne_zero.mp hpos)] at hok
  by_cases hgc : seq.count 'G' + seq.count 'C' = 0
  · rw [if_pos hgc] at hok
    exact Except.noConfusion hok
  · rw [if_neg hgc] at hok
    injection hok with hok
    subst hok
    have hle : seq.count 'C' + seq.count 'G' ≤ total_valid seq valid := by
      match valid with
      | none =>
        have h := count_two_le_countP 'C' 'G' (by decide) (fun _ => true)
          rfl rfl seq
        simpa [total_valid] using h
      | some vs =>
        obtain ⟨hC, hG⟩ := halpha vs rfl
        have h := count_two_le_countP 'C' 'G' (by decide) (fun c => decide (c ∈ vs))
          (decide_eq_true hC) (decide_eq_true hG) seq
        have hsplit := length_filter_not_add (fun c => decide (c ∈ vs)) seq
        have hlen : (seq.filter (fun c => decide (c ∈ vs))).length ≤ seq.length :=
          List.length_filter_le _ _
        simp only [total_valid]
        omega
    constructor
    · refine div_nonneg ?_ ?_
      · positivity
      · positivity
    · rw [div_le_one (by positivity)]
      exact_mod_cast hle

instance {e a : Type} [DecidableEq e] [DecidableEq a] : DecidableEq (Except e a) := fun x y =>
  match x, y with
  | Except.error u, Except.error v =>
      if h : u = v then isTrue (by rw [h])
      else isFalse (by intro hc; injection hc with hc; exact h hc)
  | Except.error _, Except.ok _ => isFalse (fun h => Except.noConfusion h)
  | Except.ok _, Except.error _ => isFalse (fun h => Except.noConfusion h)
  | Except.ok u, Except.ok v =>
      if h : u = v then isTrue (by rw [h])
      else isFalse (by intro hc; injection hc with hc; exact h hc)

/-- Witness for amended C1 at the sequence `"ACG"` with no alphabet. -/
theorem claim_C1_witness :
    0 ≤ (GcStats.mk (2/3) 0).gc_distribution ∧ (GcStats.mk (2/3) 0).gc_distribution ≤ 1 :=
  claim_C1_gc_distribution_range ['A', 'C', 'G'] none
    (fun vs h => Option.noConfusion h) (by decide) (GcStats.mk (2/3) 0)
    (by simp [get_gc_stats, total_valid, List.count_cons]; norm_num)

/-- Counterexample to C1 as stated: for the sequence `"CCA"` with alphabet
`{'A'}`, `total_valid = 1 > 0` yet `get_gc_stats` returns
`gc_distribution = 2 ∉ [0, 1]` (the two `C`s are counted although `'C'` is
not in the alphabet). -/
theorem claim_C1_counterexample :
    0 < total_valid ['C', 'C', 'A'] (some ['A']) ∧
    get_gc_stats ['C', 'C', 'A'] (some ['A']) = Except.ok (GcStats.mk 2 (-1)) ∧
    ¬ ((GcStats.mk 2 (-1)).gc_distribution ≤ 1) := by
  refine ⟨by decide, ?_, by norm_num [GcStats.mk.injEq]⟩
  simp [get_gc_stats, total_valid, List.count_cons, List.filter_cons]

/- ### Dinucleotide analyzer (get_dinucleotide_freqs) -/

/-- Python dict comprehension `{d: 0 for d in keys}`: first-occurrence
insertion order, later duplicates collapsed onto the existing entry. -/
def initZero {α : Type} [DecidableEq α] (keys : List α) : List (α × ℕ) :=
  keys.foldl (fun m d => if (lookupD d m).isSome then m else m ++ [(d, 0)]) []

/-- Python `if d in counts.keys(): counts[d] += 1`: increment the entry for
`k` when present, otherwise leave the dict unchanged (the window is silently
dropped). -/
def bumpIfPresent {α : Type} [DecidableEq α] (k : α) : List (α × ℕ) → List (α × ℕ)
  | [] => []
  | (a, b) :: t => if a = k then (a, b + 1) :: t else (a, b) :: bumpIfPresent k t

/-- `get_dinucleotide_freqs` (src/main.py lines 62-85), with the settings
alphabet made an explicit parameter: build the alphabet×alphabet key space
with zero counts, scan non-overlapping windows of length 2, count only the
windows matching a key, and normalise by the total of counted occurrences.
The source's division `count / total_dinucleotides` sits inside the dict
comprehension over `dinucleotide_counts.items()`: when the counts dict is
empty (empty alphabet) no division is evaluated and the empty dict is
returned; otherwise a zero total raises `ZeroDivisionError` at the first
entry, which is the `Except.error`. -/
def get_dinucleotide_freqs (valid_nucleobases : List Char) (sequence : Seq) :
    Except String (List (Seq × ℚ)) :=
  let valid_dinucleotides :=
    valid_nucleobases.flatMap (fun i => valid_nucleobases.map (fun j => [i, j]))
  let counts0 := initZero valid_dinucleotides
  let counts := (substrings sequence 2 2).foldl (fun m d => bumpIfPresent d m) counts0
  let total := (counts.map Prod.snd).sum
  if counts = [] then Except.ok []
  else if total = 0 then Except.error "ZeroDivisionError"
  else Except.ok (counts.map (fun kv => (kv.1, (kv.2 : ℚ) / (total : ℚ))))

theorem lookupD_append {α β : Type} [DecidableEq α] (s : α) :
    ∀ m m' : List (α × β),
      lookupD s (m ++ m')
        = if (lookupD s m).isSome then lookupD s m else lookupD s m' := by
  intro m m'
  induction m with
  | nil => simp [lookupD]
  | cons ab t ih =>
    obtain ⟨a, b⟩ := ab
    by_cases has : a = s <;> simp [lookupD, has, ih]

theorem bumpIfPresent_lookup {α : Type} [DecidableEq α] (k s : α) :
    ∀ m : List (α × ℕ),
      lookupD s (bumpIfPresent k m)
        = if s = k then (lookupD s m).map (· + 1) else lookupD s m := by
  intro m
  induction m with
  | nil => by_cases hsk : s = k <;> simp [bumpIfPresent, lookupD, hsk]
  | cons ab t ih =>
    obtain ⟨a, b⟩ := ab
    by_cases hak : a = k
    · subst hak
      by_cases hsa : s = a
      · subst hsa
        simp [bumpIfPresent, lookupD]
      · have has : ¬ (a = s) := fun h => hsa h.symm
        simp [bumpIfPresent, lookupD, has, hsa]
    · by_cases hsa : s = a
      · subst hsa
        simp [bumpIfPresent, lookupD, hak, ih]
      · have has : ¬ (a = s) := fun h => hsa h.symm
        simp [bumpIfPresent, lookupD, hak, has, ih]

theorem bumpIfPresent_sum {α : Type} [DecidableEq α] (k : α) :
    ∀ m : List (α × ℕ),
      ((bumpIfPresent k m).map Prod.snd).sum
        = (m.map Prod.snd).sum + (if (lookupD k m).isSome then 1 else 0) := by
  intro m
  induction m with
  | nil => simp [bumpIfPresent, lookupD]
  | cons ab t ih =>
    obtain ⟨a, b⟩ := ab
    by_cases hak : a = k
    · subst hak
      simp [bumpIfPresent, lookupD]
      omega
    · have hka : ¬ (a = k) := hak
      simp [bumpIfPresent, lookupD, hka, ih]
      omega

theorem foldl_bumpIfPresent_lookup {α : Type} [DecidableEq α] :
    ∀ (ws : List α) (m : List (α × ℕ)) (s : α),
      lookupD s (ws.foldl (fun m d => bumpIfPresent d m) m)
        = (lookupD s m).map (· + ws.count s) := by
  intro ws
  induction ws with
  | nil =>
    intro m s
    cases h : lookupD s m <;> simp [h]
  | cons w ws ih =>
    intro m s
    rw [List.foldl_cons, ih (bumpIfPresent w m) s, bumpIfPresent_lookup]
    by_cases hsw : s = w
    · subst hsw
      rw [if_pos rfl, List.count_cons_self]
      cases h : lookupD s m <;> simp [h]
      omega
    · rw [if_neg hsw, List.count_cons_of_ne hsw]

theorem foldl_bumpIfPresent_sum {α : Type} [DecidableEq α] :
    ∀ (ws : List α) (m : List (α × ℕ)),
      (((ws.foldl (fun m d => bumpIfPresent d m) m)).map Prod.snd).sum
        = (m.map Prod.snd).sum + ws.countP (fun d => (lookupD d m).isSome) := by
  intro ws
  induction ws with
  | nil => intro m; simp
  | cons w ws ih =>
    intro m
    rw [List.foldl_cons, ih (bumpIfPresent w m), bumpIfPresent_sum]
    have hsame : ws.countP (fun d => (lookupD d (bumpIfPresent w m)).isSome)
        = ws.countP (fun d => (lookupD d m).isSome) := by
      refine List.countP_congr ?_
      intro d _
      rw [bumpIfPresent_lookup]
      by_cases hdw : d = w
      · subst hdw
        simp only [if_pos rfl]
        cases lookupD d m <;> simp
      · rw [if_neg hdw]
    rw [hsame, List.countP_cons]
    by_cases hw : (lookupD w m).isSome = true <;> simp [hw]
    omega

theorem initZero_lookup {α : Type} [DecidableEq α] :
    ∀ (keys : List α) (acc : List (α × ℕ)) (s : α),
      lookupD s (keys.foldl
          (fun m d => if (lookupD d m).isSome then m else m ++ [(d, 0)]) acc)
        = if (lookupD s acc).isSome then lookupD s acc
          else if s ∈ keys then some 0 else none := by
  intro keys
  induction keys with
  | nil =>
    intro acc s
    cases h : lookupD s acc <;> simp [h]
  | cons d keys ih =>
    intro acc s
    rw [List.foldl_cons]
    by_cases hd : (lookupD d acc).isSome = true
    · rw [if_pos hd, ih]
      by_cases hs : (lookupD s acc).isSome = true
      · simp [hs]
      · simp only [hs, if_false]
        by_cases hsd : s = d
        · subst hsd
          exact absurd hd (by simp_all)
        · simp [List.mem_cons, hsd]
    · rw [if_neg hd, ih, lookupD_append]
      by_cases hs : (lookupD s acc).isSome = true
      · simp [hs]
      · simp only [hs, if_false]
        by_cases hsd : s = d
        · subst hsd
          simp [lookupD, hs]
        · have hds : ¬ (d = s) := fun h => hsd h.symm
          simp [lookupD, hs, hds, List.mem_cons, hsd]

theorem initZero_vals_zero {α : Type} [DecidableEq α] :
    ∀ (keys : List α) (acc : List (α × ℕ)), (∀ kv ∈ acc, kv.2 = 0) →
      ∀ kv ∈ keys.foldl
          (fun m d => if (lookupD d m).isSome then m else m ++ [(d, 0)]) acc,
        kv.2 = 0 := by
  intro keys
  induction keys with
  | nil => intro acc hacc; exact hacc
  | cons d keys ih =>
    intro acc hacc
    rw [List.foldl_cons]
    by_cases hd : (lookupD d acc).isSome = true
    · rw [if_pos hd]
      exact ih acc hacc
    · rw [if_neg hd]
      refine ih _ ?_
      intro kv hkv
      rcases List.mem_append.mp hkv with h | h
      · exact hacc kv h
      · simp only [List.mem_singleton] at h
        subst h
        rfl

theorem lookupD_isSome_iff_mem_keys {α β : Type} [DecidableEq α] (s : α)
    (m : List (α × β)) :
    (lookupD s m).isSome ↔ s ∈ m.map Prod.fst := by
  rw [lookupD_isSome_iff]
  constructor
  · rintro ⟨c, hc⟩
    exact List.mem_map.mpr ⟨(s, c), hc, rfl⟩
  · intro h
    obtain ⟨kv, hkv, he⟩ := List.mem_map.mp h
    subst he
    exact ⟨kv.2, hkv⟩

theorem initZero_nodup_keys {α : Type} [DecidableEq α] :
    ∀ (keys : List α) (acc : List (α × ℕ)), (acc.map Prod.fst).Nodup →
      ((keys.foldl
          (fun m d => if (lookupD d m).isSome then m else m ++ [(d, 0)]) acc).map
        Prod.fst).Nodup := by
  intro keys
  induction keys with
  | nil => intro acc hacc; exact hacc
  | cons d keys ih =>
    intro acc hacc
    rw [List.foldl_cons]
    by_cases hd : (lookupD d acc).isSome = true
    · rw [if_pos hd]
      exact ih acc hacc
    · rw [if_neg hd]
      refine ih _ ?_
      rw [List.map_append]
      rw [List.nodup_append]
      refine ⟨hacc, List.nodup_singleton _, ?_⟩
      intro x hx hx'
      simp only [List.map_cons, List.map_nil, List.mem_singleton] at hx'
      subst hx'
      exact hd ((lookupD_isSome_iff_mem_keys x acc).mpr hx)

theorem bumpIfPresent_keys {α : Type} [DecidableEq α] (k : α) :
    ∀ m : List (α × ℕ), (bumpIfPresent k m).map Prod.fst = m.map Prod.fst := by
  intro m
  induction m with
  | nil => rfl
  | cons ab t ih =>
    obtain ⟨a, b⟩ := ab
    by_cases hak : a = k <;> simp [bumpIfPresent, hak, ih]

theorem foldl_bumpIfPresent_keys {α : Type} [DecidableEq α] :
    ∀ (ws : List α) (m : List (α × ℕ)),
      ((ws.foldl (fun m d => bumpIfPresent d m) m).map Prod.fst) = m.map Prod.fst := by
  intro ws
  induction ws with
  | nil => intro m; rfl
  | cons w ws ih =>
    intro m
    rw [List.foldl_cons, ih (bumpIfPresent w m), bumpIfPresent_keys]

theorem lookupD_eq_of_mem_nodup {α β : Type} [DecidableEq α] :
    ∀ (m : List (α × β)) (d : α) (c : β), (m.map Prod.fst).Nodup → (d, c) ∈ m →
      lookupD d m = some c := by
  intro m
  induction m with
  | nil => intro d c _ h; cases h
  | cons ab t ih =>
    obtain ⟨a, b⟩ := ab
    intro d c hnd hmem
    rw [List.map_cons, List.nodup_cons] at hnd
    rcases List.mem_cons.mp hmem with he | hmem
    · injection he with h1 h2
      subst h1
      subst h2
      simp [lookupD]
    · have had : ¬ (a = d) := by
        intro h
        subst h
        exact hnd.1 (List.mem_map.mpr ⟨(a, c), hmem, rfl⟩)
      simp only [lookupD, if_neg had]
      exact ih d c hnd.2 hmem

theorem initZero_foldl_length_le {α : Type} [DecidableEq α] :
    ∀ (keys : List α) (acc : List (α × ℕ)),
      acc.length ≤ (keys.foldl
        (fun m d => if (lookupD d m).isSome then m else m ++ [(d, 0)]) acc).length := by
  intro keys
  induction keys with
  | nil => intro acc; exact le_rfl
  | cons d keys ih =>
    intro acc
    rw [List.foldl_cons]
    by_cases hd : (lookupD d acc).isSome = true
    · rw [if_pos hd]
      exact ih acc
    · rw [if_neg hd]
      refine le_trans ?_ (ih (acc ++ [(d, 0)]))
      simp

theorem initZero_eq_nil_iff {α : Type} [DecidableEq α] (keys : List α) :
    initZero keys = [] ↔ keys = [] := by
  constructor
  · intro h
    cases keys with
    | nil => rfl
    | cons d keys =>
      exfalso
      have h1 : 1 ≤ (initZero (d :: keys)).length := by
        rw [initZero, List.foldl_cons]
        exact initZero_foldl_length_le keys [(d, 0)]
      rw [h] at h1
      simp at h1
  · intro h
    subst h
    rfl

/-- C6 (amended): the dinucleotide analyzer counts only the non-overlapping
2-character windows whose exact text matches an alphabet-pair key (all other
windows are silently dropped, without failing); each returned frequency is
the window's matched count divided by the total of counted occurrences (not
the sequence length); and it fails with a `ZeroDivisionError` (spec:
`DomainError`) exactly when **the alphabet is non-empty and** the total
matched count is zero.  (With an empty alphabet the key space is empty, the
per-entry division never runs, and the analyzer returns the empty mapping —
see the counterexample.) -/
theorem claim_C6_dinucleotide_freqs (ab : List Char) (seq : Seq) :
    (get_dinucleotide_freqs ab seq = Except.error "ZeroDivisionError"
      ↔ (ab ≠ [] ∧ (substrings seq 2 2).countP
          (fun d => decide (d ∈ ab.flatMap (fun i => ab.map (fun j => [i, j])))) = 0)) ∧
    (∀ freqs, get_dinucleotide_freqs ab seq = Except.ok freqs →
      ∀ d f, (d, f) ∈ freqs →
        d ∈ ab.flatMap (fun i => ab.map (fun j => [i, j])) ∧
        f = (((substrings seq 2 2).countP (fun w => decide (w = d)) : ℕ) : ℚ)
              / (((substrings seq 2 2).countP
                  (fun w => decide (w ∈ ab.flatMap (fun i => ab.map (fun j => [i, j]))))
                    : ℕ) : ℚ)) := by
  set keys : List Seq := ab.flatMap (fun i => ab.map (fun j => [i, j])) with hkeys
  set ws : List Seq := substrings seq 2 2 with hws
  set counts0 : List (Seq × ℕ) := initZero keys with hcounts0
  set counts : List (Seq × ℕ) := ws.foldl (fun m d => bumpIfPresent d m) counts0
    with hcounts
  have hlookup0 : ∀ s, lookupD s counts0 = if s ∈ keys then some 0 else none := by
    intro s
    have h := initZero_lookup keys [] s
    rw [hcounts0]
    simp only [initZero]
    rw [h]
    by_cases hs : s ∈ keys <;> simp [lookupD, hs]
  have hsum0 : (counts0.map Prod.snd).sum = 0 := by
    refine List.sum_eq_zero ?_
    intro x hx
    obtain ⟨kv, hkv, rfl⟩ := List.mem_map.mp hx
    exact initZero_vals_zero keys [] (by simp) kv hkv
  have htotal : (counts.map Prod.snd).sum = ws.countP (fun d => decide (d ∈ keys)) := by
    rw [hcounts, foldl_bumpIfPresent_sum, hsum0, Nat.zero_add]
    refine List.countP_congr ?_
    intro d _
    by_cases h : d ∈ keys <;> simp [hlookup0, h]
  have hdef : get_dinucleotide_freqs ab seq
      = if counts = [] then Except.ok []
        else if (counts.map Prod.snd).sum = 0 then Except.error "ZeroDivisionError"
        else Except.ok (counts.map
          (fun kv => (kv.1, (kv.2 : ℚ) / ((counts.map Prod.snd).sum : ℚ)))) := rfl
  have hkeys_eq : counts.map Prod.fst = counts0.map Prod.fst := by
    rw [hcounts]
    exact foldl_bumpIfPresent_keys ws counts0
  have hnonempty : counts = [] ↔ ab = [] := by
    constructor
    · intro h
      have h0 : counts0.map Prod.fst = [] := by
        rw [← hkeys_eq, h]
        rfl
      have h0' : counts0 = [] := List.map_eq_nil_iff.mp h0
      have hk : keys = [] := by
        refine (initZero_eq_nil_iff keys).mp ?_
        rw [← hcounts0]
        exact h0'
      cases hab : ab with
      | nil => rfl
      | cons a t =>
        exfalso
        rw [hkeys, hab] at hk
        simp at hk
    · intro h
      have hk : keys = [] := by
        rw [hkeys, h]
        rfl
      have h0' : counts0 = [] := by
        rw [hcounts0, hk]
        rfl
      have hmf : counts.map Prod.fst = [] := by
        rw [hkeys_eq, h0']
        rfl
      exact List.map_eq_nil_iff.mp hmf
  constructor
  · rw [hdef]
    by_cases hce : counts = []
    · rw [if_pos hce]
      have hab : ab = [] := hnonempty.mp hce
      constructor
      · intro h
        exact Except.noConfusion h
      · rintro ⟨hne, _⟩
        exact absurd hab hne
    · rw [if_neg hce]
      have hab : ab ≠ [] := fun h => hce (hnonempty.mpr h)
      by_cases h0 : (counts.map Prod.snd).sum = 0
      · rw [if_pos h0]
        rw [← htotal]
        constructor
        · intro _
          exact ⟨hab, h0⟩
        · intro _
          rfl
      · rw [if_neg h0]
        constructor
        · intro h
          exact Except.noConfusion h
        · rintro ⟨_, h⟩
          rw [← htotal] at h
          exact absurd h h0
  · intro freqs hok d f hdf
    rw [hdef] at hok
    by_cases hce : counts = []
    · rw [if_pos hce] at hok
      injection hok with hok
      rw [← hok] at hdf
      cases hdf
    · rw [if_neg hce] at hok
      by_cases h0 : (counts.map Prod.snd).sum = 0
      · rw [if_pos h0] at hok
        exact Except.noConfusion hok
      · rw [if_neg h0] at hok
        injection hok with hok
        subst hok
        obtain ⟨kv, hkv, he⟩ := List.mem_map.mp hdf
        rw [Prod.mk.injEq] at he
        obtain ⟨h1, h2⟩ := he
        have hnodup : (counts.map Prod.fst).Nodup := by
          rw [hcounts, foldl_bumpIfPresent_keys]
          exact initZero_nodup_keys keys [] (by simp)
        have hlk : lookupD kv.1 counts = some kv.2 := by
          refine lookupD_eq_of_mem_nodup counts kv.1 kv.2 hnodup ?_
          cases kv
          exact hkv
        rw [hcounts, foldl_bumpIfPresent_lookup, hlookup0] at hlk
        by_cases hmem : kv.1 ∈ keys
        · rw [if_pos hmem] at hlk
          simp only [Option.map_some', Nat.zero_add, Option.some.injEq] at hlk
          subst h1
          refine ⟨hmem, ?_⟩
          rw [← h2, ← hlk, htotal]
          rfl
        · rw [if_neg hmem] at hlk
          exact Option.noConfusion hlk

/-- Witness for amended C6: with the non-empty alphabet `{'A','C'}` and
sequence `"GG"` no window matches a key, and the analyzer fails with the
division-by-zero error. -/
theorem claim_C6_witness :
    get_dinucleotide_freqs ['A', 'C'] ['G', 'G'] = Except.error "ZeroDivisionError" :=
  (claim_C6_dinucleotide_freqs ['A', 'C'] ['G', 'G']).1.mpr ⟨by decide, by decide⟩

/-- Counterexample to C6 as stated: with the **empty** alphabet the key space
is empty, so for the sequence `"GG"` the total matched count is zero, yet
`get_dinucleotide_freqs` succeeds with the empty mapping instead of failing —
the source's division sits inside the dict comprehension over the (empty)
counts dict and is never evaluated. -/
theorem claim_C6_counterexample :
    (substrings ['G', 'G'] 2 2).countP
        (fun d => decide (d ∈ ([] : List Char).flatMap
          (fun i => ([] : List Char).map (fun j => [i, j])))) = 0 ∧
    get_dinucleotide_freqs [] ['G', 'G'] = Except.ok [] ∧
    get_dinucleotide_freqs [] ['G', 'G'] ≠ Except.error "ZeroDivisionError" := by
  refine ⟨by decide, rfl, ?_⟩
  intro h
  exact Except.noConfusion h

/- ### Dataset reducer: reduce_avg -/

/-- A per-sequence stat record: a Python dict from field names to (idealised)
float values. -/
abbrev StatRecord := List (String × ℚ)

/-- Python `aggregated[key] += value`: add `v` to the entry for `k`, failing
with a `KeyError` (`none`) when `k` is absent. -/
def addTo : StatRecord → String → ℚ → Option StatRecord
  | [], _, _ => none
  | (a, b) :: t, k, v =>
      if a = k then some ((a, b + v) :: t)
      else (addTo t k v).map (fun t' => (a, b) :: t')

/-- `for key, value in stats_dict.items(): aggregated[key] += value`:
fold one record into the accumulator, key by key in the record's order,
aborting at the first missing key. -/
def addRecord (acc : StatRecord) : StatRecord → Option StatRecord
  | [] => some acc
  | (k, v) :: t =>
      match addTo acc k v with
      | none => none
      | some acc' => addRecord acc' t

/-- `reduce_avg` (src/main.py lines 290-308): initialise an accumulator with
the first record's keys at 0.0 (an `IndexError` on an empty list), add every
record field-wise (a `KeyError` on a key missing from the accumulator), and
divide by the number of records. -/
def reduce_avg (stats : List StatRecord) : Except String StatRecord :=
  match stats with
  | [] => Except.error "IndexError"
  | s0 :: _ =>
    let init : StatRecord := s0.map (fun kv => (kv.1, (0 : ℚ)))
    match stats.foldl (fun acc r => acc.bind (fun m => addRecord m r)) (some init) with
    | none => Except.error "KeyError"
    | some agg => Except.ok (agg.map (fun kv => (kv.1, kv.2 / (stats.length : ℚ))))

/-- The total contribution of key `s` in record `r` (for a dict with unique
keys this is the field's value, or 0 when the field is absent). -/
def valOf (r : StatRecord) (s : String) : ℚ :=
  ((r.filter (fun kv => decide (kv.1 = s))).map Prod.snd).sum

theorem valOf_eq_zero_of_not_mem (s : String) :
    ∀ r : StatRecord, s ∉ r.map Prod.fst → valOf r s = 0 := by
  intro r
  induction r with
  | nil => intro _; rfl
  | cons ab t ih =>
    obtain ⟨a, b⟩ := ab
    intro hs
    simp only [List.map_cons, List.mem_cons] at hs
    push_neg at hs
    have has : ¬ (a = s) := fun h => hs.1 h.symm
    simp only [valOf, List.filter_cons, decide_eq_true_eq]
    rw [if_neg (by simpa using has)]
    exact ih hs.2

theorem valOf_nodup (s : String) :
    ∀ r : StatRecord, (r.map Prod.fst).Nodup →
      valOf r s = (lookupD s r).getD 0 := by
  intro r
  induction r with
  | nil => intro _; rfl
  | cons ab t ih =>
    obtain ⟨a, b⟩ := ab
    intro hnd
    rw [List.map_cons, List.nodup_cons] at hnd
    by_cases has : a = s
    · subst has
      have h0 : valOf t a = 0 := valOf_eq_zero_of_not_mem a t hnd.1
      rw [valOf] at h0
      simp [valOf, List.filter_cons, lookupD, h0]
    · simp only [valOf, List.filter_cons, decide_eq_true_eq, if_neg has,
        lookupD, if_neg has]
      exact ih hnd.2

theorem addTo_eq_none_iff (k : String) (v : ℚ) :
    ∀ m : StatRecord, addTo m k v = none ↔ lookupD k m = none := by
  intro m
  induction m with
  | nil => simp [addTo, lookupD]
  | cons ab t ih =>
    obtain ⟨a, b⟩ := ab
    by_cases hak : a = k
    · simp [addTo, lookupD, hak]
    · simp only [addTo, lookupD, if_neg hak]
      rw [← ih]
      cases addTo t k v <;> simp

theorem addTo_some_spec (k : String) (v : ℚ) :
    ∀ (m m' : StatRecord), addTo m k v = some m' →
      m'.map Prod.fst = m.map Prod.fst ∧
      ∀ s, lookupD s m'
        = if s = k then (lookupD s m).map (· + v) else lookupD s m := by
  intro m
  induction m with
  | nil => intro m' h; exact absurd h (by simp [addTo])
  | cons ab t ih =>
    obtain ⟨a, b⟩ := ab
    intro m' h
    by_cases hak : a = k
    · rw [addTo, if_pos hak] at h
      injection h with h
      subst h
      refine ⟨by simp, ?_⟩
      intro s
      by_cases hsk : s = k
      · have has : a = s := by rw [hak, hsk]
        simp [lookupD, has, hsk]
      · have has : ¬ (a = s) := fun hh => hsk (hh.symm.trans hak)
        simp [lookupD, has, hsk]
    · rw [addTo, if_neg hak] at h
      cases ht : addTo t k v with
      | none =>
        rw [ht] at h
        simp at h
      | some t' =>
        rw [ht] at h
        simp only [Option.map_some', Option.some.injEq] at h
        subst h
        obtain ⟨hkeys, hlook⟩ := ih t' ht
        refine ⟨by simp [hkeys], ?_⟩
        intro s
        by_cases hsa : s = a
        · subst hsa
          have hsk : ¬ (s = k) := fun hh => hak (hh ▸ rfl)
          simp [lookupD, hsk]
        · have has : ¬ (a = s) := fun hh => hsa hh.symm
          simp only [lookupD, if_neg has]
          exact hlook s

theorem lookupD_mapVal {α β γ : Type} [DecidableEq α] (f : β → γ) (s : α) :
    ∀ m : List (α × β),
      lookupD s (m.map (fun kv => (kv.1, f kv.2))) = (lookupD s m).map f := by
  intro m
  induction m with
  | nil => rfl
  | cons ab t ih =>
    obtain ⟨a, b⟩ := ab
    by_cases has : a = s <;> simp [lookupD, has, ih]

theorem addRecord_some_spec :
    ∀ (r acc : StatRecord),
      (∀ k ∈ r.map Prod.fst, (lookupD k acc).isSome) →
      ∃ m', addRecord acc r = some m' ∧
        m'.map Prod.fst = acc.map Prod.fst ∧
        ∀ s, lookupD s m' = (lookupD s acc).map (· + valOf r s) := by
  intro r
  induction r with
  | nil =>
    intro acc _
    refine ⟨acc, rfl, rfl, ?_⟩
    intro s
    have h0 : valOf [] s = 0 := rfl
    rw [h0]
    cases lookupD s acc <;> simp
  | cons kv t ih =>
    obtain ⟨k, v⟩ := kv
    intro acc hpres
    have hk : (lookupD k acc).isSome := hpres k (by simp)
    cases hTo : addTo acc k v with
    | none =>
      rw [addTo_eq_none_iff] at hTo
      rw [hTo] at hk
      simp at hk
    | some acc2 =>
      obtain ⟨hkeys, hlook⟩ := addTo_some_spec k v acc acc2 hTo
      have hpres2 : ∀ k2 ∈ t.map Prod.fst, (lookupD k2 acc2).isSome := by
        intro k2 hk2
        rw [hlook k2]
        by_cases h2 : k2 = k
        · rw [if_pos h2, h2]
          cases h3 : lookupD k acc
          · rw [h3] at hk
            simp at hk
          · simp
        · rw [if_neg h2]
          exact hpres k2 (by simp [hk2])
      obtain ⟨m', hm', hkeysm, hlookm⟩ := ih acc2 hpres2
      refine ⟨m', ?_, by rw [hkeysm, hkeys], ?_⟩
      · show (match addTo acc k v with
          | none => none
          | some acc2 => addRecord acc2 t) = some m'
        rw [hTo]
        exact hm'
      · intro s
        rw [hlookm s, hlook s]
        by_cases hsk : s = k
        · subst hsk
          have hval : valOf ((s, v) :: t) s = v + valOf t s := by
            simp [valOf, List.filter_cons]
          rw [hval]
          cases lookupD s acc <;> simp
          ring
        · have hks : ¬ (k = s) := fun hh => hsk hh.symm
          rw [if_neg hsk]
          have hval : valOf ((k, v) :: t) s = valOf t s := by
            simp [valOf, List.filter_cons, hks]
          rw [hval]

theorem addRecord_keys :
    ∀ (r acc m' : StatRecord), addRecord acc r = some m' →
      m'.map Prod.fst = acc.map Prod.fst := by
  intro r
  induction r with
  | nil =>
    intro acc m' h
    injection h with h
    rw [h]
  | cons kv t ih =>
    obtain ⟨k, v⟩ := kv
    intro acc m' h
    rw [addRecord] at h
    cases hTo : addTo acc k v with
    | none =>
      rw [hTo] at h
      simp at h
    | some acc2 =>
      rw [hTo] at h
      obtain ⟨hkeys, _⟩ := addTo_some_spec k v acc acc2 hTo
      rw [ih acc2 m' h, hkeys]

theorem addRecord_none (r : StatRecord) :
    ∀ (acc : StatRecord) (k : String), k ∈ r.map Prod.fst →
      lookupD k acc = none → addRecord acc r = none := by
  induction r with
  | nil => intro acc k hk _; simp at hk
  | cons kv t ih =>
    obtain ⟨k0, v0⟩ := kv
    intro acc k hk habs
    rw [addRecord]
    cases hTo : addTo acc k0 v0 with
    | none => rfl
    | some acc2 =>
      obtain ⟨_, hlook⟩ := addTo_some_spec k0 v0 acc acc2 hTo
      by_cases hkk0 : k = k0
      · exfalso
        have : addTo acc k0 v0 = none := by
          rw [addTo_eq_none_iff, ← hkk0]
          exact habs
        rw [this] at hTo
        exact Option.noConfusion hTo
      · have hk2 : k ∈ t.map Prod.fst := by
          simp only [List.map_cons, List.mem_cons] at hk
          rcases hk with h | h
          · exact absurd h hkk0
          · exact h
        refine ih acc2 k hk2 ?_
        rw [hlook k, if_neg hkk0]
        exact habs

theorem foldl_bind_none (rs : List StatRecord) :
    rs.foldl (fun acc r => acc.bind (fun m => addRecord m r)) none = none := by
  induction rs with
  | nil => rfl
  | cons r rs ih => simpa using ih

theorem fold_records_some :
    ∀ (rs : List StatRecord) (m0 : StatRecord),
      (∀ r ∈ rs, ∀ k ∈ r.map Prod.fst, k ∈ m0.map Prod.fst) →
      ∃ m', rs.foldl (fun acc r => acc.bind (fun m => addRecord m r)) (some m0)
          = some m' ∧
        m'.map Prod.fst = m0.map Prod.fst ∧
        ∀ s, lookupD s m'
          = (lookupD s m0).map (· + ((rs.map (fun r => valOf r s)).sum)) := by
  intro rs
  induction rs with
  | nil =>
    intro m0 _
    refine ⟨m0, rfl, rfl, ?_⟩
    intro s
    cases lookupD s m0 <;> simp
  | cons r rs ih =>
    intro m0 hpres
    have hpr : ∀ k ∈ r.map Prod.fst, (lookupD k m0).isSome := by
      intro k hk
      rw [lookupD_isSome_iff_mem_keys]
      exact hpres r (by simp) k hk
    obtain ⟨m1, hm1, hkeys1, hlook1⟩ := addRecord_some_spec r m0 hpr
    have hpres2 : ∀ r2 ∈ rs, ∀ k ∈ r2.map Prod.fst, k ∈ m1.map Prod.fst := by
      intro r2 hr2 k hk
      rw [hkeys1]
      exact hpres r2 (by simp [hr2]) k hk
    obtain ⟨m', hm', hkeys', hlook'⟩ := ih m1 hpres2
    refine ⟨m', ?_, by rw [hkeys', hkeys1], ?_⟩
    · rw [List.foldl_cons]
      show rs.foldl _ ((some m0).bind (fun m => addRecord m r)) = some m'
      rw [Option.some_bind, hm1]
      exact hm'
    · intro s
      rw [hlook' s, hlook1 s]
      cases lookupD s m0 <;> simp
      ring

theorem fold_records_none :
    ∀ (rs : List StatRecord) (m0 : StatRecord) (r : StatRecord) (k : String),
      r ∈ rs → k ∈ r.map Prod.fst → k ∉ m0.map Prod.fst →
      rs.foldl (fun acc r => acc.bind (fun m => addRecord m r)) (some m0) = none := by
  intro rs
  induction rs with
  | nil => intro m0 r k hr _ _; cases hr
  | cons r0 rs ih =>
    intro m0 r k hr hk habs
    have habs' : lookupD k m0 = none := by
      cases h : lookupD k m0 with
      | none => rfl
      | some w =>
        exfalso
        refine habs ?_
        rw [← lookupD_isSome_iff_mem_keys]
        rw [h]
        rfl
    rw [List.foldl_cons, Option.some_bind]
    rcases List.mem_cons.mp hr with rfl | hr2
    · rw [addRecord_none r m0 k hk habs']
      exact foldl_bind_none rs
    · cases h0 : addRecord m0 r0 with
      | none => exact foldl_bind_none rs
      | some m1 =>
        refine ih m1 r k hr2 hk ?_
        rw [addRecord_keys r0 m0 m1 h0]
        exact habs

/-- C2 (amended): `reduce_avg` over a non-empty list of records sharing one
schema returns the per-field arithmetic mean of all records; it fails when
the record list is empty (`IndexError`) or when some record contains a field
absent from the **first** record's schema (`KeyError`).  (The original claim
"fails whenever the records' schemas differ" is too strong: a record merely
*missing* a field of the first record is silently tolerated, contributing 0
to that field's sum — see the counterexample.) -/
theorem claim_C2_reduce_avg (s0 : StatRecord) (rest : List StatRecord) :
    (reduce_avg [] = Except.error "IndexError") ∧
    ((∀ r ∈ s0 :: rest, (r.map Prod.fst).Nodup) →
      (∀ r ∈ s0 :: rest, ∀ k, k ∈ r.map Prod.fst ↔ k ∈ s0.map Prod.fst) →
      ∃ res, reduce_avg (s0 :: rest) = Except.ok res ∧
        res.map Prod.fst = s0.map Prod.fst ∧
        ∀ k v, (k, v) ∈ res →
          v = (((s0 :: rest).map (fun r => (lookupD k r).getD 0)).sum)
                / (((s0 :: rest).length : ℕ) : ℚ)) ∧
    (∀ (r : StatRecord) (k : String),
      r ∈ s0 :: rest → k ∈ r.map Prod.fst → k ∉ s0.map Prod.fst →
      reduce_avg (s0 :: rest) = Except.error "KeyError") := by
  have hkeys_init :
      (s0.map (fun kv => (kv.1, (0 : ℚ)))).map Prod.fst = s0.map Prod.fst := by
    rw [List.map_map]
    rfl
  have hdef : reduce_avg (s0 :: rest)
      = (match (s0 :: rest).foldl (fun acc r => acc.bind (fun m => addRecord m r))
            (some (s0.map (fun kv => (kv.1, (0 : ℚ))))) with
        | none => Except.error "KeyError"
        | some agg => Except.ok (agg.map
            (fun kv => (kv.1, kv.2 / (((s0 :: rest).length : ℕ) : ℚ))))) := rfl
  refine ⟨rfl, ?_, ?_⟩
  · intro hnodup hsch
    have hpres : ∀ r ∈ s0 :: rest, ∀ k ∈ r.map Prod.fst,
        k ∈ (s0.map (fun kv => (kv.1, (0 : ℚ)))).map Prod.fst := by
      intro r hr k hk
      rw [hkeys_init]
      exact (hsch r hr k).mp hk
    obtain ⟨m', hm', hkeysm, hlookm⟩ :=
      fold_records_some (s0 :: rest) (s0.map (fun kv => (kv.1, (0 : ℚ)))) hpres
    refine ⟨m'.map (fun kv => (kv.1, kv.2 / (((s0 :: rest).length : ℕ) : ℚ))),
      ?_, ?_, ?_⟩
    · rw [hdef, hm']
    · rw [List.map_map]
      show m'.map Prod.fst = s0.map Prod.fst
      rw [hkeysm, hkeys_init]
    · intro k v hkv
      obtain ⟨kv0, hkv0, he⟩ := List.mem_map.mp hkv
      rw [Prod.mk.injEq] at he
      obtain ⟨h1, h2⟩ := he
      subst h1
      have hnod : (m'.map Prod.fst).Nodup := by
        rw [hkeysm, hkeys_init]
        exact hnodup s0 (by simp)
      have hlk : lookupD kv0.1 m' = some kv0.2 := by
        refine lookupD_eq_of_mem_nodup m' _ _ hnod ?_
        cases kv0
        exact hkv0
      rw [hlookm] at hlk
      have hmem0 : kv0.1 ∈ s0.map Prod.fst := by
        have : kv0.1 ∈ m'.map Prod.fst := List.mem_map.mpr ⟨kv0, hkv0, rfl⟩
        rw [hkeysm, hkeys_init] at this
        exact this
      obtain ⟨w, hw⟩ : ∃ w, lookupD kv0.1 s0 = some w := by
        have := (lookupD_isSome_iff_mem_keys kv0.1 s0).mpr hmem0
        exact Option.isSome_iff_exists.mp this
      have hinit : lookupD kv0.1 (s0.map (fun kv => (kv.1, (0 : ℚ)))) = some 0 := by
        rw [lookupD_mapVal (fun _ => (0 : ℚ)) kv0.1 s0, hw]
        rfl
      rw [hinit] at hlk
      simp only [Option.map_some', Option.some.injEq] at hlk
      have hsums : (((s0 :: rest).map (fun r => valOf r kv0.1)).sum)
          = (((s0 :: rest).map (fun r => (lookupD kv0.1 r).getD 0)).sum) := by
        refine congrArg List.sum ?_
        refine List.map_congr_left ?_
        intro r hr
        exact valOf_nodup kv0.1 r (hnodup r hr)
      rw [← h2, ← hlk, zero_add, hsums]
  · intro r k hr hk habs
    have habs' : k ∉ (s0.map (fun kv => (kv.1, (0 : ℚ)))).map Prod.fst := by
      rw [hkeys_init]
      exact habs
    have hnone := fold_records_none (s0 :: rest)
      (s0.map (fun kv => (kv.1, (0 : ℚ)))) r k hr hk habs'
    rw [hdef, hnone]

/-- Counterexample to C2 as stated: the records `[{"x": 2}, {}]` have
different schemas (field sets `{"x"}` and `{}`), yet `reduce_avg` succeeds,
returning `{"x": 1}` instead of failing. -/
theorem claim_C2_counterexample :
    reduce_avg [[("x", (2 : ℚ))], []] = Except.ok [("x", 1)] ∧
    ([("x", (2 : ℚ))] : StatRecord).map Prod.fst ≠ (([] : StatRecord)).map Prod.fst := by
  constructor
  · show Except.ok ([("x", (0 : ℚ) + 2)].map
      (fun kv => (kv.1, kv.2 / ((2 : ℕ) : ℚ)))) = Except.ok [("x", 1)]
    norm_num
  · simp

/-- Witness for amended C2: the average of `[{"x": 2}, {"x": 4}]` is
`{"x": 3}`. -/
theorem claim_C2_witness :
    reduce_avg [[("x", (2 : ℚ))], [("x", (4 : ℚ))]] = Except.ok [("x", 3)] := by
  obtain ⟨res, hok, hkeys, hval⟩ :=
    (claim_C2_reduce_avg [("x", (2 : ℚ))] [[("x", (4 : ℚ))]]).2.1
      (by
        intro r hr
        rcases List.mem_cons.mp hr with rfl | hr2
        · simp
        · rcases List.mem_cons.mp hr2 with rfl | h
          · simp
          · cases h)
      (by
        intro r hr k
        rcases List.mem_cons.mp hr with rfl | hr2
        · exact Iff.rfl
        · rcases List.mem_cons.mp hr2 with rfl | h
          · simp
          · cases h)
  cases res with
  | nil => simp at hkeys
  | cons kv res2 =>
    cases res2 with
    | cons _ _ => simp at hkeys
    | nil =>
      obtain ⟨k, v⟩ := kv
      simp only [List.map_cons, List.map_nil, List.cons.injEq, and_true] at hkeys
      subst hkeys
      have hv := hval "x" v (by simp)
      simp only [List.map_cons, List.map_nil, lookupD, if_pos rfl,
        Option.getD_some, List.sum_cons, List.sum_nil, List.length_cons,
        List.length_nil] at hv
      norm_num at hv
      rw [hok, hv]

/- ### Dataset reducer: find_max / find_min -/

/-- The Python comparison `stats_dict[field] > max_value`: `none` is the
`float("-inf")` starting value, below every field value. -/
def maxGT (v : ℚ) (mv : Option ℚ) : Bool :=
  match mv with
  | none => true
  | some m => decide (m < v)

/-- The Python comparison `stats_dict[field] < min_value`: `none` is the
`float("inf")` starting value, above every field value. -/
def minLT (v : ℚ) (mv : Option ℚ) : Bool :=
  match mv with
  | none => true
  | some m => decide (v < m)

/-- The shared loop of `find_max` / `find_min` (src/main.py lines 242-287):
walk the records carrying `(index, best index, best value, best record)`;
on each record read the field (`KeyError` when absent) and update the best
state when the comparison `better` fires. -/
def findBestAux (better : ℚ → Option ℚ → Bool) (field : String) :
    List StatRecord → ℕ → ℕ → Option ℚ → StatRecord → Except String (ℕ × StatRecord)
  | [], _, mi, _, rd => Except.ok (mi, rd)
  | s :: rest, i, mi, mv, rd =>
      match lookupD field s with
      | none => Except.error "KeyError"
      | some v =>
          if better v mv then findBestAux better field rest (i + 1) i (some v) s
          else findBestAux better field rest (i + 1) mi mv rd

/-- `find_max` (src/main.py lines 242-263): `IndexError` on an empty list
(`stats[0]`), else the strict-greater scan from `float("-inf")`. -/
def find_max (stats : List StatRecord) (field : String) :
    Except String (ℕ × StatRecord) :=
  match stats with
  | [] => Except.error "IndexError"
  | s0 :: _ => findBestAux maxGT field stats 0 0 none s0

/-- `find_min` (src/main.py lines 266-287): `IndexError` on an empty list,
else the strict-less scan from `float("inf")`. -/
def find_min (stats : List StatRecord) (field : String) :
    Except String (ℕ × StatRecord) :=
  match stats with
  | [] => Except.error "IndexError"
  | s0 :: _ => findBestAux minLT field stats 0 0 none s0

theorem findBestAux_spec (better : ℚ → Option ℚ → Bool)
    (hbnone : ∀ v : ℚ, better v none = true)
    (hirr : ∀ a : ℚ, better a (some a) = false)
    (hasym : ∀ a b : ℚ, better b (some a) = true → better a (some b) = false)
    (htrans : ∀ a b c : ℚ, better b (some a) = true → better c (some b) = true →
      better c (some a) = true)
    (hneg : ∀ a b c : ℚ, better b (some a) = false → better c (some a) = true →
      better c (some b) = true)
    (field : String) :
    ∀ (rest : List StatRecord) (i mi : ℕ) (mv : Option ℚ) (rd : StatRecord),
      (∀ r ∈ rest, (lookupD field r).isSome) →
      ∃ j rd', findBestAux better field rest i mi mv rd = Except.ok (j, rd') ∧
        ((j = mi ∧ rd' = rd ∧
            ∀ n (hn : n < rest.length) (w : ℚ),
              lookupD field (rest.get ⟨n, hn⟩) = some w → better w mv = false) ∨
         (∃ n, ∃ hn : n < rest.length, ∃ v : ℚ,
            j = i + n ∧ rd' = rest.get ⟨n, hn⟩ ∧
            lookupD field (rest.get ⟨n, hn⟩) = some v ∧ better v mv = true ∧
            (∀ m (hm : m < rest.length) (w : ℚ),
              lookupD field (rest.get ⟨m, hm⟩) = some w → better w (some v) = false) ∧
            (∀ m (hm : m < rest.length), m < n → ∀ w : ℚ,
              lookupD field (rest.get ⟨m, hm⟩) = some w → better v (some w) = true))) := by
  intro rest
  induction rest with
  | nil =>
    intro i mi mv rd _
    exact ⟨mi, rd, rfl, Or.inl ⟨rfl, rfl, fun n hn => absurd hn (by simp)⟩⟩
  | cons s rest ih =>
    intro i mi mv rd hpres
    obtain ⟨v0, hv0⟩ : ∃ v0, lookupD field s = some v0 :=
      Option.isSome_iff_exists.mp (hpres s (by simp))
    have hpres' : ∀ r ∈ rest, (lookupD field r).isSome :=
      fun r hr => hpres r (by simp [hr])
    have hstep : findBestAux better field (s :: rest) i mi mv rd
        = if better v0 mv then findBestAux better field rest (i + 1) i (some v0) s
          else findBestAux better field rest (i + 1) mi mv rd := by
      show (match lookupD field s with
        | none => Except.error "KeyError"
        | some v =>
            if better v mv then findBestAux better field rest (i + 1) i (some v) s
            else findBestAux better field rest (i + 1) mi mv rd) = _
      rw [hv0]
    by_cases hb : better v0 mv = true
    · rw [hstep, if_pos hb]
      obtain ⟨j, rd', hrun, hcase⟩ := ih (i + 1) i (some v0) s hpres'
      refine ⟨j, rd', hrun, Or.inr ?_⟩
      rcases hcase with ⟨hj, hrd, hall⟩ | ⟨n, hn, v, hj, hrd, hlk, hbv, hall, hstrict⟩
      · refine ⟨0, by simp, v0, by omega, by rw [hrd]; rfl, hv0, hb, ?_, ?_⟩
        · intro m hm w hw
          cases m with
          | zero =>
            have hws : lookupD field s = some w := hw
            rw [hv0] at hws
            injection hws with hws
            subst hws
            exact hirr v0
          | succ m' =>
            exact hall m' (by simpa using hm) w hw
        · intro m hm hm0
          omega
      · refine ⟨n + 1, by simpa using hn, v, by omega, hrd, hlk, ?_, ?_, ?_⟩
        · cases mv with
          | none => exact hbnone v
          | some m0 => exact htrans m0 v0 v hb hbv
        · intro m hm w hw
          cases m with
          | zero =>
            have hws : lookupD field s = some w := hw
            rw [hv0] at hws
            injection hws with hws
            subst hws
            exact hasym v0 v hbv
          | succ m' =>
            exact hall m' (by simpa using hm) w hw
        · intro m hm hmn w hw
          cases m with
          | zero =>
            have hws : lookupD field s = some w := hw
            rw [hv0] at hws
            injection hws with hws
            subst hws
            exact hbv
          | succ m' =>
            exact hstrict m' (by simpa using hm) (by omega) w hw
    · have hbf : better v0 mv = false := by
        cases h : better v0 mv
        · rfl
        · exact absurd h hb
      rw [hstep, if_neg hb]
      obtain ⟨m0, rfl⟩ : ∃ m0, mv = some m0 := by
        cases mv with
        | none => exact absurd (hbnone v0) (by rw [hbf]; simp)
        | some m0 => exact ⟨m0, rfl⟩
      obtain ⟨j, rd', hrun, hcase⟩ := ih (i + 1) mi (some m0) rd hpres'
      refine ⟨j, rd', hrun, ?_⟩
      rcases hcase with ⟨hj, hrd, hall⟩ | ⟨n, hn, v, hj, hrd, hlk, hbv, hall, hstrict⟩
      · refine Or.inl ⟨hj, hrd, ?_⟩
        intro m hm w hw
        cases m with
        | zero =>
          rw [List.get] at hw
          rw [hv0] at hw
          injection hw with hw
          subst hw
          exact hbf
        | succ m' =>
          exact hall m' (by simpa using hm) w hw
      · have hvv0 : better v (some v0) = true := hneg m0 v0 v hbf hbv
        refine Or.inr ⟨n + 1, by simpa using hn, v, by omega, hrd, hlk, hbv, ?_, ?_⟩
        · intro m hm w hw
          cases m with
          | zero =>
            have hws : lookupD field s = some w := hw
            rw [hv0] at hws
            injection hws with hws
            subst hws
            exact hasym v0 v hvv0
          | succ m' =>
            exact hall m' (by simpa using hm) w hw
        · intro m hm hmn w hw
          cases m with
          | zero =>
            have hws : lookupD field s = some w := hw
            rw [hv0] at hws
            injection hws with hws
            subst hws
            exact hvv0
          | succ m' =>
            exact hstrict m' (by simpa using hm) (by omega) w hw

/-- C8: over a non-empty record list in which the requested field is present
in every record (one shared schema), `find_max` returns the first index
achieving the maximum field value together with the record at that index, and
`find_min` symmetrically the first index achieving the minimum (strict
less-than comparison); both fail with a `KeyError` when the field is absent
from the first record (hence from the shared schema). -/
theorem claim_C8_find_max_min (s0 : StatRecord) (rest : List StatRecord)
    (field : String) :
    ((∀ r ∈ s0 :: rest, (lookupD field r).isSome) →
      (∃ n, ∃ hn : n < (s0 :: rest).length, ∃ v : ℚ,
        find_max (s0 :: rest) field
          = Except.ok (n, (s0 :: rest).get ⟨n, hn⟩) ∧
        lookupD field ((s0 :: rest).get ⟨n, hn⟩) = some v ∧
        (∀ j (hj : j < (s0 :: rest).length) (w : ℚ),
          lookupD field ((s0 :: rest).get ⟨j, hj⟩) = some w → w ≤ v) ∧
        (∀ j (hj : j < (s0 :: rest).length), j < n → ∀ w : ℚ,
          lookupD field ((s0 :: rest).get ⟨j, hj⟩) = some w → w < v)) ∧
      (∃ n, ∃ hn : n < (s0 :: rest).length, ∃ v : ℚ,
        find_min (s0 :: rest) field
          = Except.ok (n, (s0 :: rest).get ⟨n, hn⟩) ∧
        lookupD field ((s0 :: rest).get ⟨n, hn⟩) = some v ∧
        (∀ j (hj : j < (s0 :: rest).length) (w : ℚ),
          lookupD field ((s0 :: rest).get ⟨j, hj⟩) = some w → v ≤ w) ∧
        (∀ j (hj : j < (s0 :: rest).length), j < n → ∀ w : ℚ,
          lookupD field ((s0 :: rest).get ⟨j, hj⟩) = some w → v < w))) ∧
    (lookupD field s0 = none →
      find_max (s0 :: rest) field = Except.error "KeyError" ∧
      find_min (s0 :: rest) field = Except.error "KeyError") := by
  constructor
  · intro hpres
    constructor
    · obtain ⟨j, rd', hrun, hcase⟩ := findBestAux_spec maxGT
        (fun v => rfl)
        (fun a => by simp [maxGT])
        (fun a b h => by simp [maxGT] at *; linarith)
        (fun a b c h1 h2 => by simp [maxGT] at *; linarith)
        (fun a b c h1 h2 => by simp [maxGT] at *; linarith)
        field (s0 :: rest) 0 0 none s0 hpres
      rcases hcase with ⟨_, _, hall⟩ | ⟨n, hn, v, hj, hrd, hlk, _, hall, hstrict⟩
      · exfalso
        obtain ⟨w, hw⟩ := Option.isSome_iff_exists.mp (hpres s0 (by simp))
        have := hall 0 (by simp) w hw
        simp [maxGT] at this
      · subst hj
        refine ⟨n, hn, v, ?_, hlk, ?_, ?_⟩
        · show findBestAux maxGT field (s0 :: rest) 0 0 none s0 = _
          rw [hrun, hrd, Nat.zero_add]
        · intro j hj w hw
          have := hall j hj w hw
          simp [maxGT] at this
          linarith
        · intro j hj hjn w hw
          have := hstrict j hj hjn w hw
          simp [maxGT] at this
          linarith
    · obtain ⟨j, rd', hrun, hcase⟩ := findBestAux_spec minLT
        (fun v => rfl)
        (fun a => by simp [minLT])
        (fun a b h => by simp [minLT] at *; linarith)
        (fun a b c h1 h2 => by simp [minLT] at *; linarith)
        (fun a b c h1 h2 => by simp [minLT] at *; linarith)
        field (s0 :: rest) 0 0 none s0 hpres
      rcases hcase with ⟨_, _, hall⟩ | ⟨n, hn, v, hj, hrd, hlk, _, hall, hstrict⟩
      · exfalso
        obtain ⟨w, hw⟩ := Option.isSome_iff_exists.mp (hpres s0 (by simp))
        have := hall 0 (by simp) w hw
        simp [minLT] at this
      · subst hj
        refine ⟨n, hn, v, ?_, hlk, ?_, ?_⟩
        · show findBestAux minLT field (s0 :: rest) 0 0 none s0 = _
          rw [hrun, hrd, Nat.zero_add]
        · intro j hj w hw
          have := hall j hj w hw
          simp [minLT] at this
          linarith
        · intro j hj hjn w hw
          have := hstrict j hj hjn w hw
          simp [minLT] at this
          linarith
  · intro habs
    constructor
    · show findBestAux maxGT field (s0 :: rest) 0 0 none s0 = _
      show (match lookupD field s0 with
        | none => Except.error "KeyError"
        | some v =>
            if maxGT v none then findBestAux maxGT field rest (0 + 1) 0 (some v) s0
            else findBestAux maxGT field rest (0 + 1) 0 none s0) = _
      rw [habs]
    · show findBestAux minLT field (s0 :: rest) 0 0 none s0 = _
      show (match lookupD field s0 with
        | none => Except.error "KeyError"
        | some v =>
            if minLT v none then findBestAux minLT field rest (0 + 1) 0 (some v) s0
            else findBestAux minLT field rest (0 + 1) 0 none s0) = _
      rw [habs]

/-- Witness for C8: requesting the absent field `"x"` from the record
`{"y": 1}` makes both reductions fail with a `KeyError`. -/
theorem claim_C8_witness :
    find_max [[("y", (1 : ℚ))]] "x" = Except.error "KeyError" ∧
    find_min [[("y", (1 : ℚ))]] "x" = Except.error "KeyError" :=
  (claim_C8_find_max_min [("y", (1 : ℚ))] [] "x").2 (by decide)

/- ### Top-N k-mer aggregation (find_top_k_mers) -/

/-- The descending-count comparison used to rank k-mer entries (Python
`items.sort(key=lambda kv: kv[1], reverse=True)`). -/
def countGe (a b : Seq × ℕ) : Prop := b.2 ≤ a.2

instance : DecidableRel countGe := fun a b => Nat.decLe b.2 a.2

instance : IsTotal (Seq × ℕ) countGe := ⟨fun a b => Nat.le_total b.2 a.2⟩

instance : IsTrans (Seq × ℕ) countGe := ⟨fun _ _ _ h1 h2 => Nat.le_trans h2 h1⟩

/-- `get_top_values` (src/main.py lines 195-200): sort the dict items by
count descending and truncate to the top `n`.  Python's `list.sort` is
stable; a stable sort is the unique permutation that is sorted by the key
and preserves the original relative order inside every equal-count class,
so insertion sort with `countGe` produces the same list. -/
def get_top_values (top : ℕ) (d : List (Seq × ℕ)) : List (Seq × ℕ) :=
  (List.insertionSort countGe d).take top

/-- `apply_foreach` (src/main.py lines 220-239): apply an analysis function
to every sequence of the dataset, collecting results in dataset order. -/
def apply_foreach {γ : Type} (seqs : List Seq) (analysis_func : Seq → γ) : List γ :=
  seqs.map analysis_func

/-- The combined-mode accumulation of `find_top_k_mers` (src/main.py lines
209-214): sum counts for identical keys across all sequences, iterating
sequences in dataset order and keys in insertion order. -/
def aggregate (maps : List (List (Seq × ℕ))) : List (Seq × ℕ) :=
  maps.foldl (fun acc m => m.foldl (fun acc2 kv => bump kv.1 kv.2 acc2) acc) []

/-- `find_top_k_mers` (src/main.py lines 174-217). -/
def find_top_k_mers (seqs : List Seq) (top k : ℕ) (per_sequence : Bool) :
    List (List (Seq × ℕ)) :=
  let all_k_mer_stats := apply_foreach seqs (fun s => find_k_mers s k)
  if per_sequence then all_k_mer_stats.map (fun m => get_top_values top m)
  else [get_top_values top (aggregate all_k_mer_stats)]

/-- Per-key total of a counting dict (for unique keys: the key's count, or 0
when absent). -/
def valOfN (m : List (Seq × ℕ)) (s : Seq) : ℕ :=
  ((m.filter (fun kv => decide (kv.1 = s))).map Prod.snd).sum

theorem valOfN_nil (s : Seq) : valOfN [] s = 0 := rfl

theorem valOfN_cons (k : Seq) (v : ℕ) (t : List (Seq × ℕ)) (s : Seq) :
    valOfN ((k, v) :: t) s = (if k = s then v else 0) + valOfN t s := by
  by_cases hks : k = s <;> simp [valOfN, List.filter_cons, hks]

theorem dval_bump (k : Seq) (v : ℕ) (m : List (Seq × ℕ)) (s : Seq) :
    (lookupD s (bump k v m)).getD 0
      = (lookupD s m).getD 0 + (if k = s then v else 0) := by
  rw [lookupD_bump]
  by_cases hsk : s = k
  · subst hsk
    simp
  · have hks : ¬ (k = s) := fun h => hsk h.symm
    simp [hsk, hks]

theorem dval_foldl_one_map :
    ∀ (m acc : List (Seq × ℕ)) (s : Seq),
      (lookupD s (m.foldl (fun a kv => bump kv.1 kv.2 a) acc)).getD 0
        = (lookupD s acc).getD 0 + valOfN m s := by
  intro m
  induction m with
  | nil => intro acc s; simp [valOfN_nil]
  | cons kv t ih =>
    obtain ⟨k, v⟩ := kv
    intro acc s
    rw [List.foldl_cons, ih (bump k v acc) s, dval_bump, valOfN_cons]
    omega

theorem dval_aggregate_fold :
    ∀ (maps : List (List (Seq × ℕ))) (acc : List (Seq × ℕ)) (s : Seq),
      (lookupD s (maps.foldl
          (fun acc m => m.foldl (fun acc2 kv => bump kv.1 kv.2 acc2) acc) acc)).getD 0
        = (lookupD s acc).getD 0 + (maps.map (fun m => valOfN m s)).sum := by
  intro maps
  induction maps with
  | nil => intro acc s; simp
  | cons m maps ih =>
    intro acc s
    rw [List.foldl_cons, ih _ s, dval_foldl_one_map]
    simp only [List.map_cons, List.sum_cons]
    omega

theorem bump_keys {α : Type} [DecidableEq α] (k : α) (v : ℕ) :
    ∀ m : List (α × ℕ),
      (bump k v m).map Prod.fst
        = if k ∈ m.map Prod.fst then m.map Prod.fst else m.map Prod.fst ++ [k] := by
  intro m
  induction m with
  | nil => simp [bump]
  | cons ab t ih =>
    obtain ⟨a, b⟩ := ab
    by_cases hak : a = k
    · subst hak
      simp [bump]
    · have hka : ¬ (k = a) := fun h => hak h.symm
      simp only [bump, if_neg hak, List.map_cons, List.mem_cons]
      rw [ih]
      by_cases hkt : k ∈ t.map Prod.fst
      · simp [hkt, hka]
      · simp [hkt, hka]

theorem bump_nodup_keys {α : Type} [DecidableEq α] (k : α) (v : ℕ)
    (m : List (α × ℕ)) (h : (m.map Prod.fst).Nodup) :
    ((bump k v m).map Prod.fst).Nodup := by
  rw [bump_keys]
  by_cases hk : k ∈ m.map Prod.fst
  · simpa [hk] using h
  · rw [if_neg hk]
    rw [List.nodup_append]
    refine ⟨h, List.nodup_singleton _, ?_⟩
    intro x hx hx'
    simp only [List.mem_singleton] at hx'
    subst hx'
    exact hk hx

theorem foldl_one_map_nodup_keys :
    ∀ (m acc : List (Seq × ℕ)), ((acc.map Prod.fst).Nodup) →
      (((m.foldl (fun a kv => bump kv.1 kv.2 a) acc)).map Prod.fst).Nodup := by
  intro m
  induction m with
  | nil => intro acc h; exact h
  | cons kv t ih =>
    intro acc h
    exact ih (bump kv.1 kv.2 acc) (bump_nodup_keys kv.1 kv.2 acc h)

theorem aggregate_nodup_keys (maps : List (List (Seq × ℕ))) :
    ((aggregate maps).map Prod.fst).Nodup := by
  rw [aggregate]
  generalize hacc : ([] : List (Seq × ℕ)) = acc
  have hnd : (acc.map Prod.fst).Nodup := by rw [← hacc]; exact List.nodup_nil
  clear hacc
  induction maps generalizing acc with
  | nil => exact hnd
  | cons m maps ih =>
    rw [List.foldl_cons]
    exact ih _ (foldl_one_map_nodup_keys m acc hnd)

theorem find_k_mers_nodup_keys (seq : Seq) (k : ℕ) :
    ((find_k_mers seq k).map Prod.fst).Nodup := by
  rw [find_k_mers]
  generalize hacc : ([] : List (Seq × ℕ)) = acc
  have hnd : (acc.map Prod.fst).Nodup := by rw [← hacc]; exact List.nodup_nil
  clear hacc
  generalize substrings seq k 1 = ws
  induction ws generalizing acc with
  | nil => exact hnd
  | cons w ws ih =>
    rw [List.foldl_cons]
    exact ih _ (bump_nodup_keys w 1 acc hnd)

theorem filter_count_orderedInsert (c : ℕ) (a : Seq × ℕ) :
    ∀ l : List (Seq × ℕ),
      ((List.orderedInsert countGe a l).filter (fun kv => kv.2 == c))
        = if a.2 = c then a :: l.filter (fun kv => kv.2 == c)
          else l.filter (fun kv => kv.2 == c) := by
  intro l
  induction l with
  | nil =>
    by_cases hac : a.2 = c <;> simp [List.orderedInsert, List.filter_cons, hac]
  | cons b l ih =>
    rw [List.orderedInsert]
    by_cases hr : countGe a b
    · rw [if_pos hr]
      by_cases hac : a.2 = c <;> simp [List.filter_cons, hac]
    · rw [if_neg hr]
      have hblt : a.2 < b.2 := by
        rw [countGe] at hr
        omega
      rw [List.filter_cons, List.filter_cons, ih]
      by_cases hac : a.2 = c
      · have hbcf : ¬ ((b.2 == c) = true) := by
          simp only [beq_iff_eq]
          omega
        rw [if_pos hac, if_pos hac, if_neg hbcf, if_neg hbcf]
      · rw [if_neg hac, if_neg hac]

theorem valOfN_eq_zero_of_not_mem (key : Seq) :
    ∀ m : List (Seq × ℕ), key ∉ m.map Prod.fst → valOfN m key = 0 := by
  intro m
  induction m with
  | nil => intro _; rfl
  | cons ab t ih =>
    obtain ⟨a, b⟩ := ab
    intro hs
    simp only [List.map_cons, List.mem_cons] at hs
    push_neg at hs
    have hak : ¬ (a = key) := fun h => hs.1 h.symm
    rw [valOfN_cons, if_neg hak, ih hs.2]

theorem valOfN_nodup (key : Seq) :
    ∀ m : List (Seq × ℕ), (m.map Prod.fst).Nodup →
      valOfN m key = (lookupD key m).getD 0 := by
  intro m
  induction m with
  | nil => intro _; rfl
  | cons ab t ih =>
    obtain ⟨a, b⟩ := ab
    intro hnd
    rw [List.map_cons, List.nodup_cons] at hnd
    by_cases hak : a = key
    · subst hak
      have h0 : valOfN t a = 0 := valOfN_eq_zero_of_not_mem a t hnd.1
      rw [valOfN_cons, if_pos rfl, h0]
      simp [lookupD]
    · rw [valOfN_cons, if_neg hak]
      simp only [lookupD, if_neg hak]
      rw [ih hnd.2]
      omega

theorem filter_count_insertionSort (c : ℕ) :
    ∀ l : List (Seq × ℕ),
      ((List.insertionSort countGe l).filter (fun kv => kv.2 == c))
        = l.filter (fun kv => kv.2 == c) := by
  intro l
  induction l with
  | nil => rfl
  | cons a l ih =>
    rw [List.insertionSort, filter_count_orderedInsert, List.filter_cons]
    by_cases hac : a.2 = c
    · rw [if_pos hac, ih, if_pos (by simpa using hac)]
    · rw [if_neg hac, ih, if_neg (by simpa using hac)]

/-- C4: in combined mode (`per_sequence = false`) `find_top_k_mers` returns a
single-element outer list wrapping one ranked list:
the ranked list is the `top`-prefix of a reordering `full` of the combined
count map (`aggregate`, built in dataset order then key insertion order, so
its key order is first-encountered order);
its length is at most `top`; counts are non-increasing along it; each entry's
count is the sum of that key's counts across all sequences; and `full`
preserves the combined map's relative order inside every equal-count class
(ties broken by first-encountered order). -/
theorem claim_C4_top_k_combined (seqs : List Seq) (top k : ℕ) :
    ∃ ranked full : List (Seq × ℕ),
      find_top_k_mers seqs top k false = [ranked] ∧
      ranked = full.take top ∧
      ranked.length ≤ top ∧
      List.Pairwise countGe full ∧
      (∀ kv ∈ ranked, kv.2
        = ((seqs.map (fun s => (lookupD kv.1 (find_k_mers s k)).getD 0)).sum)) ∧
      (∀ c : ℕ, full.filter (fun kv => kv.2 == c)
        = (aggregate (seqs.map (fun s => find_k_mers s k))).filter
            (fun kv => kv.2 == c)) := by
  set maps : List (List (Seq × ℕ)) := seqs.map (fun s => find_k_mers s k) with hmaps
  set agg : List (Seq × ℕ) := aggregate maps with hagg
  set full : List (Seq × ℕ) := List.insertionSort countGe agg with hfull
  refine ⟨full.take top, full, rfl, rfl, List.length_take_le top full, ?_, ?_, ?_⟩
  · exact List.sorted_insertionSort countGe agg
  · intro kv hkv
    have hkv2 : kv ∈ full := List.take_subset top full hkv
    have hkvagg : kv ∈ agg := (List.mem_insertionSort countGe).mp hkv2
    have hlk : lookupD kv.1 agg = some kv.2 := by
      refine lookupD_eq_of_mem_nodup agg kv.1 kv.2 ?_ ?_
      · exact aggregate_nodup_keys maps
      · cases kv
        exact hkvagg
    have hdval : (lookupD kv.1 agg).getD 0
        = (maps.map (fun m => valOfN m kv.1)).sum := by
      rw [hagg, aggregate]
      rw [dval_aggregate_fold maps [] kv.1]
      simp [lookupD]
    rw [hlk] at hdval
    simp only [Option.getD_some] at hdval
    rw [hdval, hmaps, List.map_map]
    refine congrArg List.sum ?_
    refine List.map_congr_left ?_
    intro s _
    exact valOfN_nodup kv.1 (find_k_mers s k) (find_k_mers_nodup_keys s k)
  · intro c
    rw [hfull]
    exact filter_count_insertionSort c agg

/-- Witness for C4 at the dataset `["ABAB", "AB"]` with `k = 2`, `top = 2`:
the combined ranked list is `[("AB", 3), ("BA", 1)]`. -/
theorem claim_C4_witness :
    find_top_k_mers [['A', 'B', 'A', 'B'], ['A', 'B']] 2 2 false
      = [[(['A', 'B'], 3), (['B', 'A'], 1)]] := by
  obtain ⟨ranked, full, hret, _, _, _, _, _⟩ :=
    claim_C4_top_k_combined [['A', 'B', 'A', 'B'], ['A', 'B']] 2 2
  rw [hret]
  have : ranked = [(['A', 'B'], 3), (['B', 'A'], 1)] := by
    have h2 : [ranked] = find_top_k_mers [['A', 'B', 'A', 'B'], ['A', 'B']] 2 2 false :=
      hret.symm
    have h3 : find_top_k_mers [['A', 'B', 'A', 'B'], ['A', 'B']] 2 2 false
        = [[(['A', 'B'], 3), (['B', 'A'], 1)]] := by decide
    rw [h3] at h2
    injection h2.symm with h4
    exact h4.symm
  rw [this]

/- ### Palindrome detector (find_palindromes) -/

/-- The stats object mutated by `find_palindromes`: a counter and the list of
emitted `{pos, length}` records, in emission order. -/
structure PalStats where
  num_palindromes : ℕ
  palindromes : List (ℕ × ℕ)
deriving DecidableEq

/-- `expand_frontier` (src/main.py lines 124-143): expand outwards from a
centre while both frontiers are in bounds and the frontier characters match,
emitting a record whenever the current substring is long and diverse enough.
`start` is a natural number: Python's `start -= 1` below zero makes the
`start >= 0` guard fail, which is modelled by stopping after the `start = 0`
iteration.  The reads `sequence[start]`/`sequence[end]` are total `getD`
reads; every call site maintains `start ≤ end`, so inside the guard
`end < len(sequence)` both indices are in bounds and the defaults are never
used. -/
def expand_frontier (sequence : Seq) (min_substring_len min_bases : ℕ) :
    ℕ → ℕ → PalStats → PalStats
  | start, e, st =>
    if e < sequence.length ∧ sequence.getD start 'A' = sequence.getD e 'A' then
      let substring := (sequence.drop start).take (e + 1 - start)
      let st' :=
        if min_substring_len < substring.length ∧ min_bases ≤ substring.dedup.length
        then PalStats.mk (st.num_palindromes + 1)
          (st.palindromes ++ [(start, substring.length)])
        else st
      match start with
      | 0 => st'
      | s + 1 => expand_frontier sequence min_substring_len min_bases s (e + 1) st'
    else st

/-- `find_palindromes` (src/main.py lines 106-149): for every index collect
the odd-centre expansion `(i, i)` and then the even-centre expansion
`(i, i+1)`. -/
def find_palindromes (sequence : Seq) (min_substring_len min_bases : ℕ) : PalStats :=
  (List.range sequence.length).foldl
    (fun st i =>
      expand_frontier sequence min_substring_len min_bases i (i + 1)
        (expand_frontier sequence min_substring_len min_bases i i st))
    (PalStats.mk 0 [])

theorem expand_frontier_count (seq : Seq) (a b : ℕ) :
    ∀ (start : ℕ) (e : ℕ) (st : PalStats),
      st.num_palindromes = st.palindromes.length →
      (expand_frontier seq a b start e st).num_palindromes
        = (expand_frontier seq a b start e st).palindromes.length := by
  intro start
  induction start with
  | zero =>
    intro e st hst
    rw [expand_frontier]
    by_cases hg : e < seq.length ∧ seq.getD 0 'A' = seq.getD e 'A'
    · rw [if_pos hg]
      by_cases he : a < ((seq.drop 0).take (e + 1 - 0)).length ∧
          b ≤ ((seq.drop 0).take (e + 1 - 0)).dedup.length
      · simp only [if_pos he]
        simp [hst]
      · simp only [if_neg he]
        exact hst
    · rw [if_neg hg]
      exact hst
  | succ s ih =>
    intro e st hst
    rw [expand_frontier]
    by_cases hg : e < seq.length ∧ seq.getD (s + 1) 'A' = seq.getD e 'A'
    · rw [if_pos hg]
      by_cases he : a < ((seq.drop (s + 1)).take (e + 1 - (s + 1))).length ∧
          b ≤ ((seq.drop (s + 1)).take (e + 1 - (s + 1))).dedup.length
      · simp only [if_pos he]
        refine ih (e + 1) _ ?_
        simp [hst]
      · simp only [if_neg he]
        exact ih (e + 1) st hst
    · rw [if_neg hg]
      exact hst

/-- C9: the `num_palindromes` counter always equals the length of the
emitted `palindromes` list. -/
theorem claim_C9_palindrome_count (seq : Seq) (a b : ℕ) :
    (find_palindromes seq a b).num_palindromes
      = (find_palindromes seq a b).palindromes.length := by
  rw [find_palindromes]
  generalize hst : PalStats.mk 0 [] = st0
  have h0 : st0.num_palindromes = st0.palindromes.length := by
    rw [← hst]
    rfl
  clear hst
  generalize List.range seq.length = is
  induction is generalizing st0 with
  | nil => exact h0
  | cons i is ih =>
    rw [List.foldl_cons]
    refine ih _ ?_
    exact expand_frontier_count seq a b i (i + 1) _
      (expand_frontier_count seq a b i i st0 h0)

theorem slice_decomp (seq : Seq) (i j : ℕ) (hij : i < j) (hj : j < seq.length) :
    (seq.drop i).take (j + 1 - i)
      = seq.getD i 'A' :: (((seq.drop (i + 1)).take (j - (i + 1))) ++ [seq.getD j 'A']) := by
  have hi : i < seq.length := lt_trans hij hj
  rw [List.getD_eq_getElem seq 'A' hi, List.getD_eq_getElem seq 'A' hj]
  rw [List.drop_eq_getElem_cons hi]
  have h1 : j + 1 - i = ((j - (i + 1)) + 1) + 1 := by omega
  rw [h1, List.take_succ_cons]
  congr 1
  rw [List.take_succ]
  congr 1
  rw [List.getElem?_drop]
  have h2 : i + 1 + (j - (i + 1)) = j := by omega
  rw [h2, List.getElem?_eq_getElem hj]
  rfl

theorem expand_frontier_good (seq : Seq) (a b : ℕ) :
    ∀ (start : ℕ) (e : ℕ) (st : PalStats),
      start ≤ e →
      List.Palindrome ((seq.drop (start + 1)).take (e - (start + 1))) →
      (∀ p l, (p, l) ∈ st.palindromes →
        (((seq.drop p).take l).reverse = (seq.drop p).take l) ∧
        a < l ∧ b ≤ ((seq.drop p).take l).dedup.length) →
      ∀ p l, (p, l) ∈ (expand_frontier seq a b start e st).palindromes →
        (((seq.drop p).take l).reverse = (seq.drop p).take l) ∧
        a < l ∧ b ≤ ((seq.drop p).take l).dedup.length := by
  intro start
  induction start with
  | zero =>
    intro e st hle hpal hgood p l hmem
    rw [expand_frontier] at hmem
    by_cases hg : e < seq.length ∧ seq.getD 0 'A' = seq.getD e 'A'
    · rw [if_pos hg] at hmem
      have hpalsub : List.Palindrome ((seq.drop 0).take (e + 1 - 0)) := by
        by_cases hse : 0 = e
        · rw [← hse]
          rw [show 0 + 1 - 0 = 1 from rfl]
          rw [List.drop_eq_getElem_cons (show 0 < seq.length from hse ▸ hg.1)]
          rw [List.take_succ_cons, List.take_zero]
          exact List.Palindrome.singleton _
        · have h0e : 0 < e := by omega
          rw [slice_decomp seq 0 e h0e hg.1, ← hg.2]
          exact List.Palindrome.cons_concat _ hpal
      have hlen : ((seq.drop 0).take (e + 1 - 0)).length = e + 1 - 0 := by
        simp only [List.length_take, List.length_drop]
        omega
      by_cases hemit : a < ((seq.drop 0).take (e + 1 - 0)).length ∧
          b ≤ ((seq.drop 0).take (e + 1 - 0)).dedup.length
      · simp only [if_pos hemit] at hmem
        simp only [List.mem_append, List.mem_singleton, Prod.mk.injEq] at hmem
        rcases hmem with hmem | ⟨hp, hl⟩
        · exact hgood p l hmem
        · subst hp
          subst hl
          have he1 := hemit.1
          rw [hlen] at he1
          rw [hlen]
          exact ⟨hpalsub.reverse_eq, he1, hemit.2⟩
      · simp only [if_neg hemit] at hmem
        exact hgood p l hmem
    · rw [if_neg hg] at hmem
      exact hgood p l hmem
  | succ s ih =>
    intro e st hle hpal hgood p l hmem
    rw [expand_frontier] at hmem
    by_cases hg : e < seq.length ∧ seq.getD (s + 1) 'A' = seq.getD e 'A'
    · rw [if_pos hg] at hmem
      have hpalsub : List.Palindrome ((seq.drop (s + 1)).take (e + 1 - (s + 1))) := by
        by_cases hse : s + 1 = e
        · rw [show e + 1 - (s + 1) = 1 from by omega]
          rw [List.drop_eq_getElem_cons (show s + 1 < seq.length from hse ▸ hg.1)]
          rw [List.take_succ_cons, List.take_zero]
          exact List.Palindrome.singleton _
        · have hlt : s + 1 < e := by omega
          rw [slice_decomp seq (s + 1) e hlt hg.1, ← hg.2]
          exact List.Palindrome.cons_concat _ hpal
      have hlen : ((seq.drop (s + 1)).take (e + 1 - (s + 1))).length = e + 1 - (s + 1) := by
        simp only [List.length_take, List.length_drop]
        omega
      have hst' : ∀ p2 l2,
          (p2, l2) ∈ (if a < ((seq.drop (s + 1)).take (e + 1 - (s + 1))).length ∧
              b ≤ ((seq.drop (s + 1)).take (e + 1 - (s + 1))).dedup.length
            then PalStats.mk (st.num_palindromes + 1)
              (st.palindromes ++ [(s + 1, ((seq.drop (s + 1)).take (e + 1 - (s + 1))).length)])
            else st).palindromes →
          (((seq.drop p2).take l2).reverse = (seq.drop p2).take l2) ∧
          a < l2 ∧ b ≤ ((seq.drop p2).take l2).dedup.length := by
        intro p2 l2 hmem2
        by_cases hemit : a < ((seq.drop (s + 1)).take (e + 1 - (s + 1))).length ∧
            b ≤ ((seq.drop (s + 1)).take (e + 1 - (s + 1))).dedup.length
        · simp only [if_pos hemit] at hmem2
          simp only [List.mem_append, List.mem_singleton, Prod.mk.injEq] at hmem2
          rcases hmem2 with hmem2 | ⟨hp, hl⟩
          · exact hgood p2 l2 hmem2
          · subst hp
            subst hl
            have he1 := hemit.1
            rw [hlen] at he1
            rw [hlen]
            exact ⟨hpalsub.reverse_eq, he1, hemit.2⟩
        · simp only [if_neg hemit] at hmem2
          exact hgood p2 l2 hmem2
      refine ih (e + 1) _ (by omega) ?_ hst' p l hmem
      have harith : (e + 1) - (s + 1) = e + 1 - (s + 1) := rfl
      exact hpalsub
    · rw [if_neg hg] at hmem
      exact hgood p l hmem

/-- C3: every record `(start, length)` emitted by the palindrome detector
satisfies: the substring `sequence[start .. start+length)` equals its own
reverse, `length` is strictly greater than `min_substring_len`, and the
substring contains at least `min_bases` distinct characters. -/
theorem claim_C3_palindrome_records (seq : Seq) (a b : ℕ) :
    ∀ p l, (p, l) ∈ (find_palindromes seq a b).palindromes →
      (((seq.drop p).take l).reverse = (seq.drop p).take l) ∧
      a < l ∧ b ≤ ((seq.drop p).take l).dedup.length := by
  rw [find_palindromes]
  generalize hst : PalStats.mk 0 [] = st0
  have h0 : ∀ p l, (p, l) ∈ st0.palindromes →
      (((seq.drop p).take l).reverse = (seq.drop p).take l) ∧
      a < l ∧ b ≤ ((seq.drop p).take l).dedup.length := by
    rw [← hst]
    intro p l hmem
    cases hmem
  clear hst
  generalize List.range seq.length = is
  induction is generalizing st0 with
  | nil => exact h0
  | cons i is ih =>
    rw [List.foldl_cons]
    refine ih _ ?_
    refine expand_frontier_good seq a b i (i + 1) _ (by omega) ?_ ?_
    · rw [show (i + 1) - (i + 1) = 0 from by omega, List.take_zero]
      exact List.Palindrome.nil
    · refine expand_frontier_good seq a b i i st0 le_rfl ?_ h0
      rw [show i - (i + 1) = 0 from by omega, List.take_zero]
      exact List.Palindrome.nil

/-- Witness for C3 at the sequence `"ABA"` with `min_substring_len = 2`,
`min_bases = 2`: the emitted record `(0, 3)` is the palindrome `"ABA"`. -/
theorem claim_C3_witness :
    ((((['A', 'B', 'A'] : Seq).drop 0).take 3).reverse
        = ((['A', 'B', 'A'] : Seq).drop 0).take 3) ∧
    2 < 3 ∧ 2 ≤ ((((['A', 'B', 'A'] : Seq).drop 0).take 3)).dedup.length :=
  claim_C3_palindrome_records ['A', 'B', 'A'] 2 2 0 3 (by decide)
